import Mathlib

/-!
Verification of the TOON codec (the `tone` Python package): a shallow
embedding of the encoder and decoder over `List Char` strings, with
theorems settling the specification claims.  Python strings are modelled
as `List Char`; machine integers are `Int`/`Nat`; fallible code returns
`Except`/`Option`.  Host-specific behaviour that the embedding models
explicitly (Python `str.strip`, `float(...)`, `int(...)`, single-character
`str.replace`) is defined below next to the functions that use it.
-/

namespace Tone

abbrev Str := List Char

/-- Backslash character (escape introducer). -/
def bsC : Char := Char.ofNat 92

/-- Double-quote character. -/
def dqC : Char := Char.ofNat 34

/-- Opening brace character. -/
def obC : Char := Char.ofNat 123

/-- Closing brace character. -/
def cbC : Char := Char.ofNat 125

/-- Whitespace as recognised by Python `str.strip()` / `str.isspace()`
restricted to the ASCII range (the repository only feeds ASCII
whitespace to `strip`): space, tab, newline, carriage return, vertical
tab, form feed. -/
def pyWS (c : Char) : Bool :=
  decide (c = ' ' ∨ c = '\t' ∨ c = '\n' ∨ c = '\r' ∨ c = Char.ofNat 11 ∨ c = Char.ofNat 12)

/-- Python `str.strip()`. -/
def pyStrip (s : Str) : Str :=
  ((s.dropWhile pyWS).reverse.dropWhile pyWS).reverse

/-- Python `str.split(sep)` for a single-character separator. -/
def splitOnChar (d : Char) : Str → List Str
  | [] => [[]]
  | c :: rest =>
    if c = d then [] :: splitOnChar d rest
    else
      match splitOnChar d rest with
      | [] => [[c]]
      | p :: ps => (c :: p) :: ps

/-- Python `sep.join(pieces)` for a single-character separator. -/
def joinChar (d : Char) : List Str → Str
  | [] => []
  | [l] => l
  | l :: ls => l ++ d :: joinChar d ls

/-- Python `str.replace(old, new)` where `old` is a single character:
every occurrence of the character is replaced. -/
def pyReplaceChar (c : Char) (rep : Str) : Str → Str
  | [] => []
  | x :: xs => (if x = c then rep else [x]) ++ pyReplaceChar c rep xs

/-- Python `str.lower()` restricted to ASCII case mapping. -/
def pyLower (s : Str) : Str := s.map Char.toLower

/-- Decimal digit run without underscores: the characters matched by an
ASCII `\d+` regex group.  Python's `re` also matches non-ASCII decimal
digits; the repository only exercises ASCII digits, which is what is
modelled. -/
def asciiDigit (c : Char) : Bool := decide ('0' ≤ c ∧ c ≤ '9')

/-- Digit-run parser used by the models of Python `float(...)` and
`int(...)`: `digit (['_'] digit)*` — underscores are allowed only
between digits (CPython grammar).  Returns the digits (underscores
removed) and the unconsumed rest. -/
def duLoop : Str → List Char → (List Char × Str)
  | [], acc => (acc, [])
  | c :: rest, acc =>
    if c = '_' then
      match rest with
      | d :: rest2 => if asciiDigit d then duLoop rest2 (acc ++ [d]) else (acc, c :: rest)
      | [] => (acc, c :: rest)
    else if asciiDigit c then duLoop rest (acc ++ [c]) else (acc, c :: rest)

/-- Parse a nonempty underscore-grouped digit run; `none` if the input
does not start with a digit. -/
def parseDigitsU : Str → Option (List Char × Str)
  | c :: rest => if asciiDigit c then some (duLoop rest [c]) else none
  | [] => none

/-- Numeric value of a list of decimal digit characters. -/
def digitsVal (ds : List Char) : Nat :=
  ds.foldl (fun a c => a * 10 + (c.toNat - 48)) 0

/-- Decimal digit character for a value below ten. -/
def digitChar (d : Nat) : Char := Char.ofNat (48 + d)

/-- Helper for `natRepr`: the fuel bounds the number of division steps;
`natRepr` passes `n + 1`, which always suffices since each step divides
by ten. -/
def natReprAux : Nat → Nat → Str
  | 0, _ => []
  | fuel + 1, n =>
    if n < 10 then [digitChar n] else natReprAux fuel (n / 10) ++ [digitChar (n % 10)]

/-- Decimal representation of a natural number (Python `str(n)` for
`n ≥ 0`). -/
def natRepr (n : Nat) : Str := natReprAux (n + 1) n

/-- Decimal representation of an integer (Python `str(n)` for `int`). -/
def intRepr (n : Int) : Str :=
  if n < 0 then '-' :: natRepr n.natAbs else natRepr n.natAbs

/-- Result of Python `float(token)` on an accepted token: a finite value
(kept as the exact rational value of the literal; rounding to the host
double and overflow to infinity on huge exponents are not modelled), an
infinity, or a NaN. -/
inductive FloatLit where
  | fin (q : ℚ)
  | inf (neg : Bool)
  | nan
deriving DecidableEq

/-- Mantissa of the CPython float grammar: `digits [. [digits]] | . digits`.
Returns integer digits, fraction digits and the unconsumed rest. -/
def mantissaParse (s : Str) : Option (List Char × List Char × Str) :=
  match parseDigitsU s with
  | some (ip, rest) =>
    match rest with
    | '.' :: r2 =>
      match parseDigitsU r2 with
      | some (fp, r3) => some (ip, fp, r3)
      | none => some (ip, [], r2)
    | _ => some (ip, [], rest)
  | none =>
    match s with
    | '.' :: r2 =>
      match parseDigitsU r2 with
      | some (fp, r3) => some ([], fp, r3)
      | none => none
    | _ => none

/-- Exponent part of the CPython float grammar: `([eE] [+-]? digits)?`.
Returns the signed exponent and the unconsumed rest. -/
def expoParse (s : Str) : Option (Int × Str) :=
  match s with
  | e :: rest =>
    if e = 'e' ∨ e = 'E' then
      let (eneg, r1) : Bool × Str :=
        match rest with
        | '+' :: r2 => (false, r2)
        | '-' :: r2 => (true, r2)
        | _ => (false, rest)
      match parseDigitsU r1 with
      | some (ds, r2) =>
        some (if eneg then -(digitsVal ds : Int) else (digitsVal ds : Int), r2)
      | none => none
    else some (0, s)
  | [] => some (0, [])

/-- Model of Python `float(token)`: strip whitespace, optional sign, then
either an `inf`/`infinity`/`nan` word (case-insensitive) or a numeric
literal `digits [. [digits]] [exponent] | . digits [exponent]` with
underscores allowed between digits.  Non-ASCII digits and overflow of
huge exponents to infinity are not modelled. -/
def pyFloatParse (raw : Str) : Option FloatLit :=
  let s := pyStrip raw
  let (neg, s1) : Bool × Str :=
    match s with
    | '+' :: r => (false, r)
    | '-' :: r => (true, r)
    | _ => (false, s)
  let low := pyLower s1
  if low = ("inf").data ∨ low = ("infinity").data then some (.inf neg)
  else if low = ("nan").data then some .nan
  else
    match mantissaParse s1 with
    | none => none
    | some (ip, fp, rest) =>
      match expoParse rest with
      | some (ex, []) =>
        let mant : ℚ := (digitsVal (ip ++ fp) : ℚ) / (10 : ℚ) ^ fp.length
        let v : ℚ := mant * (10 : ℚ) ^ ex
        some (.fin (if neg then -v else v))
      | _ => none

/-- Model of Python `int(token)` for base 10: strip whitespace, optional
sign, then a nonempty underscore-grouped digit run consuming the whole
rest.  Non-ASCII digits are not modelled. -/
def pyIntParse (raw : Str) : Option Int :=
  let s := pyStrip raw
  let (neg, s1) : Bool × Str :=
    match s with
    | '+' :: r => (false, r)
    | '-' :: r => (true, r)
    | _ => (false, s)
  match parseDigitsU s1 with
  | some (ds, []) => some (if neg then -(digitsVal ds : Int) else (digitsVal ds : Int))
  | _ => none

/-! Error kinds surfaced by the decoder (`tone.exceptions` raises Python
exceptions; the embedding returns these structured kinds). -/

/-- Context label for count-mismatch errors (the `what` string passed to
`assert_expected_count` in the source). -/
inductive CLabel where
  | inlineItems
  | listItems
  | tabularRows
  | rowValues
deriving DecidableEq

/-- Decoder error kinds. -/
inductive Err where
  | emptyInput
  | invalidEscape
  | unterminated
  | afterQuote
  | missingColon
  | invalidLength
  | tabIndent (ln : Nat)
  | indentMult (ln : Nat)
  | countMismatch (label : CLabel) (observed expected : Int)
  | blankInside
  | extraRows
  | extraItems
  | noContent
  | fuelOut
deriving DecidableEq

/-! Embedding of `tone/shared/literal_utils.py`. -/

/-- Source `is_boolean_or_null_literal`: token is `true`, `false` or
`null`. -/
def is_boolean_or_null_literal (token : Str) : Bool :=
  decide (token = ("true").data ∨ token = ("false").data ∨ token = ("null").data)

/-- Exponent tail of the `is_numeric_like` regex: `([eE][+-]?\d+)?`
matched against the whole remaining input. -/
def expoLike (s : Str) : Bool :=
  match s with
  | [] => true
  | e :: rest =>
    decide (e = 'e' ∨ e = 'E') &&
      (let r : Str :=
        match rest with
        | '+' :: r2 => r2
        | '-' :: r2 => r2
        | _ => rest
      decide (r.takeWhile asciiDigit ≠ [] ∧ r.dropWhile asciiDigit = []))

/-- Core of the `is_numeric_like` regex `-?\d+(\.\d+)?([eE][+-]?\d+)?`
as a whole-string match (ASCII digits). -/
def numLikeCore (s : Str) : Bool :=
  let s1 : Str := match s with | '-' :: r => r | _ => s
  let ds := s1.takeWhile asciiDigit
  let r1 := s1.dropWhile asciiDigit
  decide (ds ≠ []) &&
    (match r1 with
     | '.' :: r2 =>
       decide (r2.takeWhile asciiDigit ≠ []) && expoLike (r2.dropWhile asciiDigit)
     | _ => expoLike r1)

/-- Core of the leading-zero regex `0\d+` as a whole-string match. -/
def zeroLeadCore (s : Str) : Bool :=
  match s with
  | '0' :: rest => decide (rest ≠ []) && rest.all asciiDigit
  | _ => false

/-- Python `re.match` with a `^...$` pattern: the `$` anchor also matches
just before one final newline, so the pattern accepts the exact string or
the string minus one trailing newline. -/
def pyFullMatch (core : Str → Bool) (s : Str) : Bool :=
  core s || (decide (s.getLast? = some '\n') && core s.dropLast)

/-- Source `is_numeric_like`: the anchored regex
`-?\d+(\.\d+)?([eE][+-]?\d+)?`, or the leading-zero pattern `0\d+`. -/
def is_numeric_like (value : Str) : Bool :=
  pyFullMatch numLikeCore value || pyFullMatch zeroLeadCore value

/-- Source `is_numeric_literal`: nonempty, no forbidden leading zero
(`token[0] = '0'` with `token[1] ≠ '.'` on length > 1), and `float(token)`
succeeds with a finite non-NaN result. -/
def is_numeric_literal (token : Str) : Bool :=
  if token = [] then false
  else if decide (token.length > 1) && decide (token.get? 0 = some '0') &&
          decide (token.get? 1 ≠ some '.') then false
  else
    match pyFloatParse token with
    | some (.fin _) => true
    | _ => false

/-! Embedding of `tone/shared/string_utils.py`. -/

/-- Source `escape_string`: sequential single-character replacements of
backslash, double quote, newline, carriage return and tab, in that
order. -/
def escape_string (value : Str) : Str :=
  pyReplaceChar '\t' [bsC, 't']
    (pyReplaceChar '\r' [bsC, 'r']
      (pyReplaceChar '\n' [bsC, 'n']
        (pyReplaceChar dqC [bsC, dqC]
          (pyReplaceChar bsC [bsC, bsC] value))))

/-- Per-character escape map; `escape_string` is proved equal to its
pointwise extension `escAll`. -/
def escChar (c : Char) : Str :=
  if c = bsC then [bsC, bsC]
  else if c = dqC then [bsC, dqC]
  else if c = '\n' then [bsC, 'n']
  else if c = '\r' then [bsC, 'r']
  else if c = '\t' then [bsC, 't']
  else [c]

/-- Pointwise extension of `escChar` to strings. -/
def escAll : Str → Str
  | [] => []
  | c :: cs => escChar c ++ escAll cs

/-- Source `unescape_string`: scan for backslashes; a backslash must be
followed by one of `n t r \ "`; a backslash at the end of the input or
followed by any other character is an invalid-escape error. -/
def unescape_string : Str → Except Err Str
  | [] => .ok []
  | c :: rest =>
    if c = bsC then
      match rest with
      | [] => .error .invalidEscape
      | n :: rest2 =>
        if n = 'n' then (unescape_string rest2).map (fun r => '\n' :: r)
        else if n = 't' then (unescape_string rest2).map (fun r => '\t' :: r)
        else if n = 'r' then (unescape_string rest2).map (fun r => '\r' :: r)
        else if n = bsC then (unescape_string rest2).map (fun r => bsC :: r)
        else if n = dqC then (unescape_string rest2).map (fun r => dqC :: r)
        else .error .invalidEscape
    else (unescape_string rest).map (fun r => c :: r)

/-- Scan loop of `find_closing_quote`, operating on the suffix of the
content starting at index `i`: an in-quotes backslash (with a following
character) skips two positions, a double quote returns its index. -/
def fcqGo : Str → Nat → Option Nat
  | [], _ => none
  | [c], i => if c = dqC then some i else none
  | c :: d :: rest, i =>
    if c = bsC then fcqGo rest (i + 2)
    else if c = dqC then some i
    else fcqGo (d :: rest) (i + 1)

/-- Source `find_closing_quote`: position of the closing quote for a
quoted string whose opening quote is at `start`; `none` models the
Python return value `-1`. -/
def find_closing_quote (content : Str) (start : Nat) : Option Nat :=
  fcqGo (content.drop (start + 1)) (start + 1)

/-- Scan loop of `find_unquoted_char`. -/
def fucGo (ch : Char) : Str → Nat → Bool → Option Nat
  | [], _, _ => none
  | [c], i, inq =>
    if c = dqC then none
    else if c = ch ∧ inq = false then some i
    else none
  | c :: d :: rest, i, inq =>
    if c = bsC ∧ inq = true then fucGo ch rest (i + 2) inq
    else if c = dqC then fucGo ch (d :: rest) (i + 1) (!inq)
    else if c = ch ∧ inq = false then some i
    else fucGo ch (d :: rest) (i + 1) inq

/-- Source `find_unquoted_char` with `start = 0` (the only way the
repository calls it): index of the first occurrence of `ch` outside
quoted sections, `none` modelling `-1`. -/
def find_unquoted_char (content : Str) (ch : Char) : Option Nat :=
  fucGo ch content 0 false

/-! Embedding of `tone/shared/validation.py`. -/

/-- Core of the `is_valid_unquoted_key` regex `[A-Z_][\w.]*` with
`re.IGNORECASE`, as a whole-string match over ASCII word characters
(non-ASCII word characters are not modelled). -/
def keyCore (s : Str) : Bool :=
  match s with
  | [] => false
  | c :: rest =>
    decide (c.isAlpha ∨ c = '_') &&
      rest.all (fun x => decide (x.isAlphanum ∨ x = '_' ∨ x = '.'))

/-- Source `is_valid_unquoted_key`. -/
def is_valid_unquoted_key (key : Str) : Bool :=
  pyFullMatch keyCore key

/-- Source `is_safe_unquoted`: whether a string value can be emitted
without quotes under the active delimiter. -/
def is_safe_unquoted (value : Str) (delimiter : Char) : Bool :=
  if value = [] then false
  else if value ≠ pyStrip value then false
  else if is_boolean_or_null_literal value || is_numeric_like value then false
  else if ':' ∈ value then false
  else if dqC ∈ value ∨ bsC ∈ value then false
  else if value.any (fun c => decide (c = '[' ∨ c = ']' ∨ c = obC ∨ c = cbC)) then false
  else if value.any (fun c => decide (c = '\n' ∨ c = '\r' ∨ c = '\t')) then false
  else if delimiter ∈ value then false
  else if value.head? = some '-' then false
  else true

/-! Data model for the encoder (`tone/encode/normalize.py`, `tone/types.py`). -/

/-- Character-set invariant of the host's `str(float)` output: Python
formats a float using digits, `.`, `-`, `+`, `e` (or the words `inf` /
`nan`), never whitespace and never a newline. -/
def floatReprOk (r : Str) : Bool :=
  decide (r ≠ []) &&
    r.all (fun c =>
      asciiDigit c ||
        decide (c = '.' ∨ c = '-' ∨ c = '+' ∨ c = 'e' ∨ c = 'i' ∨ c = 'n' ∨ c = 'f' ∨ c = 'a'))

/-- Host `float` object as the encoder observes it: finiteness, whether
it is `-0.0`, and its `str(...)` representation (host float formatting is
carried as data; the invariant records the character classes `str(float)`
can produce). -/
structure PyFloat where
  finite : Bool
  negZero : Bool
  fRepr : Str
  fRepr_ok : floatReprOk fRepr = true

/-- Host dictionary key as seen by `normalize_value`: Python `str`,
`int`, `bool` and `float` keys pass `_is_valid_dict_key`; `None` and any
other hashable (tuples, frozensets, ...) do not. -/
inductive PyKey where
  | kStr (s : Str)
  | kInt (n : Int)
  | kBool (b : Bool)
  | kFloat (f : PyFloat)
  | kNone
  | kTuple

/-- Host value tree fed to `encode` (`normalize_value`'s input space):
`dict` covers plain dicts only; dict subclasses, functions, classes and
every other unrecognised object fall under `other` (normalized to null).
`set` carries its iteration order as a list. -/
inductive PyValue where
  | pyNone
  | bool (b : Bool)
  | int (n : Int)
  | float (f : PyFloat)
  | str (s : Str)
  | datetime (iso : Str)
  | list (xs : List PyValue)
  | set (xs : List PyValue)
  | dict (kvs : List (PyKey × PyValue))
  | other

/-- Normalized JSON-compatible value (`JsonValue` in `tone/types.py`).
Floats keep their `PyFloat` identity so the emitted text is the host
`str(float)` representation. -/
inductive Json where
  | null
  | bool (b : Bool)
  | int (n : Int)
  | float (f : PyFloat)
  | str (s : Str)
  | arr (xs : List Json)
  | obj (kvs : List (Str × Json))

/-- Source `_is_valid_dict_key`: `isinstance(key, (str, int, float, bool))`. -/
def is_valid_dict_key (k : PyKey) : Bool :=
  match k with
  | .kStr _ => true
  | .kInt _ => true
  | .kBool _ => true
  | .kFloat _ => true
  | .kNone => false
  | .kTuple => false

/-- Python `str(key)` for the dict-key types. -/
def pyKeyStr (k : PyKey) : Str :=
  match k with
  | .kStr s => s
  | .kInt n => intRepr n
  | .kBool b => if b then ("True").data else ("False").data
  | .kFloat f => f.fRepr
  | .kNone => ("None").data
  | .kTuple => []

/-- Python dict item assignment `m[k] = v`: an existing key keeps its
position and takes the new value, a new key is appended. -/
def pyDictInsert {α : Type} (m : List (Str × α)) (k : Str) (v : α) : List (Str × α) :=
  if m.any (fun p => decide (p.1 = k)) then
    m.map (fun p => if p.1 = k then (k, v) else p)
  else m ++ [(k, v)]

/-! Embedding of `normalize_value` (`tone/encode/normalize.py`). -/

mutual

/-- Source `normalize_value`: fold a host value into the六 JSON kinds —
None→null; bool/int/str pass through; float: `-0.0`→`0`, non-finite→null;
datetime→ISO string; list/set→array of normalized elements; plain dict→
object keeping insertion order, keeping only `str`/`int`/`float`/`bool`
keys, stringifying them; anything else→null. -/
def normalize_value : PyValue → Json
  | .pyNone => .null
  | .bool b => .bool b
  | .int n => .int n
  | .float f => if f.negZero then .int 0 else if f.finite then .float f else .null
  | .str s => .str s
  | .datetime iso => .str iso
  | .list xs => .arr (normalize_children xs)
  | .set xs => .arr (normalize_children xs)
  | .dict kvs => .obj (normalize_entries kvs [])
  | .other => .null

/-- List-comprehension part of `normalize_value` for arrays. -/
def normalize_children : List PyValue → List Json
  | [] => []
  | x :: xs => normalize_value x :: normalize_children xs

/-- Dict loop of `normalize_value`: `for key in value: if
_is_valid_dict_key(key): result[str(key)] = normalize_value(value[key])`. -/
def normalize_entries : List (PyKey × PyValue) → List (Str × Json) → List (Str × Json)
  | [], acc => acc
  | (k, v) :: rest, acc =>
    if is_valid_dict_key k then
      normalize_entries rest (pyDictInsert acc (pyKeyStr k) (normalize_value v))
    else normalize_entries rest acc

end

/-! Embedding of `tone/encode/primitives.py`. -/

/-- Source `encode_string_literal`: emit unquoted when safe, otherwise
quote-and-escape. -/
def encode_string_literal (value : Str) (delimiter : Char) : Str :=
  if is_safe_unquoted value delimiter then value
  else dqC :: escape_string value ++ [dqC]

/-- Source `encode_key`: emit unquoted when the key matches the
identifier regex, otherwise quote-and-escape. -/
def encode_key (key : Str) : Str :=
  if is_valid_unquoted_key key then key
  else dqC :: escape_string key ++ [dqC]

/-- Source `encode_primitive`.  The `.arr`/`.obj` rows are unreachable:
every caller guards with `is_json_primitive`. -/
def encode_primitive (v : Json) (delimiter : Char) : Str :=
  match v with
  | .null => ("null").data
  | .bool b => if b then ("true").data else ("false").data
  | .int n => intRepr n
  | .float f => f.fRepr
  | .str s => encode_string_literal s delimiter
  | .arr _ => []
  | .obj _ => []

/-- Source `encode_and_join_primitives`. -/
def encode_and_join_primitives (values : List Json) (delimiter : Char) : Str :=
  joinChar delimiter (values.map (fun v => encode_primitive v delimiter))

/-- Source `format_header`: `key?[#?N delim?]{fields?}:`; the delimiter
appears in the brackets only when it differs from the comma default, the
brace segment only for a nonempty field list, the key only when nonempty
(Python truthiness). -/
def format_header (length : Nat) (key : Option Str) (fields : Option (List Str))
    (delimiter : Char) (marker : Bool) : Str :=
  (match key with
   | some k => if k = [] then [] else encode_key k
   | none => []) ++
  ('[' :: ((if marker then ['#'] else []) ++ natRepr length ++
    (if delimiter = ',' then [] else [delimiter]) ++ [']'])) ++
  (match fields with
   | some fs => if fs = [] then [] else obC :: (joinChar delimiter (fs.map encode_key) ++ [cbC])
   | none => []) ++ [':']

/-! Embedding of `tone/encode/encoders.py` and the line writer.  The
`LineWriter` is append-only, so each encoder function is modelled as
returning the list of lines it pushes; `pushLine` prepends the
indentation of `writer.push`. -/

/-- Resolved encode options (`ResolvedEncodeOptions`). -/
structure EncOpts where
  indent : Nat
  delimiter : Char
  lengthMarker : Bool

/-- Default resolved encode options: indent 2, comma, no length marker. -/
def defaultEncOpts : EncOpts := ⟨2, ',', false⟩

/-- Writer `push`: indentation times depth, then the content. -/
def pushLine (o : EncOpts) (depth : Nat) (content : Str) : Str :=
  List.replicate (o.indent * depth) ' ' ++ content

/-- Writer `push_list_item`: `"- "` then the content. -/
def pushItem (o : EncOpts) (depth : Nat) (content : Str) : Str :=
  pushLine o depth ('-' :: ' ' :: content)

/-- Source `is_json_primitive`. -/
def is_json_primitive (v : Json) : Bool :=
  match v with
  | .arr _ => false
  | .obj _ => false
  | _ => true

/-- Source `is_array_of_primitives`. -/
def is_array_of_primitives (xs : List Json) : Bool :=
  xs.all is_json_primitive

/-- Source `is_array_of_arrays`. -/
def is_array_of_arrays (xs : List Json) : Bool :=
  xs.all (fun v => match v with | .arr _ => true | _ => false)

/-- Source `is_array_of_objects`. -/
def is_array_of_objects (xs : List Json) : Bool :=
  xs.all (fun v => match v with | .obj _ => true | _ => false)

/-- Python dict lookup on the assoc-list model (first matching key). -/
def objGet (kvs : List (Str × Json)) (k : Str) : Option Json :=
  (kvs.find? (fun p => decide (p.1 = k))).map (fun p => p.2)

/-- Source `is_tabular_array`: every row is an object with the same
number of keys as the header, containing every header key with a
primitive value. -/
def is_tabular_array (rows : List Json) (header : List Str) : Bool :=
  rows.all (fun r =>
    match r with
    | .obj kvs =>
      decide (kvs.length = header.length) &&
        header.all (fun k =>
          match objGet kvs k with
          | some v => is_json_primitive v
          | none => false)
    | _ => false)

/-- Source `extract_tabular_header`: the ordered key list of the first
row when the array is tabular. -/
def extract_tabular_header (rows : List Json) : Option (List Str) :=
  match rows with
  | [] => none
  | first :: _ =>
    match first with
    | .obj kvs =>
      let first_keys := kvs.map (fun p => p.1)
      if first_keys = [] then none
      else if is_tabular_array rows first_keys then some first_keys else none
    | _ => none

/-- Source `write_tabular_rows`; non-dict rows are skipped (`continue`),
and `row[key]` is modelled with a null default — unreachable because the
tabular guard checked every key is present. -/
def write_tabular_rows (rows : List Json) (header : List Str) (depth : Nat)
    (o : EncOpts) : List Str :=
  rows.filterMap (fun r =>
    match r with
    | .obj kvs =>
      some (pushLine o depth
        (encode_and_join_primitives (header.map (fun k => (objGet kvs k).getD .null))
          o.delimiter))
    | _ => none)

/-- Source `encode_inline_array_line`. -/
def encode_inline_array_line (values : List Json) (delimiter : Char)
    (key : Option Str) (marker : Bool) : Str :=
  let header := format_header values.length key none delimiter marker
  if values.length = 0 then header
  else header ++ ' ' :: encode_and_join_primitives values delimiter

/-- Source `encode_array_of_arrays_as_list_items`: header line, then one
inline list item per inner primitive array (inner arrays failing the
primitive check are skipped by the guard in the loop). -/
def encode_array_of_arrays_as_list_items (key : Option Str) (values : List Json)
    (depth : Nat) (o : EncOpts) : List Str :=
  pushLine o depth (format_header values.length key none o.delimiter o.lengthMarker) ::
    values.filterMap (fun a =>
      match a with
      | .arr xs =>
        if is_array_of_primitives xs then
          some (pushItem o (depth + 1) (encode_inline_array_line xs o.delimiter none o.lengthMarker))
        else none
      | _ => none)

/-- Source `encode_array_of_objects_as_tabular`. -/
def encode_array_of_objects_as_tabular (key : Option Str) (rows : List Json)
    (header : List Str) (depth : Nat) (o : EncOpts) : List Str :=
  pushLine o depth
      (format_header rows.length key (some header) o.delimiter o.lengthMarker) ::
    write_tabular_rows rows header (depth + 1) o

mutual

/-- Source `encode_object`: one key-value emission per entry, in order. -/
def encode_object : List (Str × Json) → Nat → EncOpts → List Str
  | [], _, _ => []
  | (k, v) :: rest, depth, o =>
    encode_key_value_pair k v depth o ++ encode_object rest depth o

/-- Source `encode_key_value_pair`. -/
def encode_key_value_pair (k : Str) (v : Json) (depth : Nat) (o : EncOpts) : List Str :=
  match v with
  | .arr xs => encode_array (some k) xs depth o
  | .obj kvs =>
    pushLine o depth (encode_key k ++ [':']) ::
      (if kvs.isEmpty then [] else encode_object kvs (depth + 1) o)
  | _ =>
    [pushLine o depth (encode_key k ++ ':' :: ' ' :: encode_primitive v o.delimiter)]

/-- Source `encode_array`: dispatch between the empty header, inline
primitive, array-of-primitive-arrays, tabular and expanded layouts.  The
two fall-through calls to `encode_mixed_array_as_list_items` are inlined
(header line, then the item loop with its first iteration unrolled) so
that the mutual recursion is structural; the wrapper below restates the
source function and `encode_array_mixed_eq` proves the branches equal
it. -/
def encode_array : Option Str → List Json → Nat → EncOpts → List Str
  | key, [], depth, o =>
    [pushLine o depth (format_header 0 key none o.delimiter o.lengthMarker)]
  | key, x :: xs, depth, o =>
    if is_array_of_primitives (x :: xs) then
      [pushLine o depth (encode_inline_array_line (x :: xs) o.delimiter key o.lengthMarker)]
    else if is_array_of_arrays (x :: xs) &&
        (x :: xs).all (fun a => match a with | .arr ys => is_array_of_primitives ys | _ => true) then
      encode_array_of_arrays_as_list_items key (x :: xs) depth o
    else if is_array_of_objects (x :: xs) then
      match extract_tabular_header (x :: xs) with
      | some header => encode_array_of_objects_as_tabular key (x :: xs) header depth o
      | none =>
        pushLine o depth
            (format_header (x :: xs).length key none o.delimiter o.lengthMarker) ::
          (encode_list_item_value x (depth + 1) o ++ encode_list_items xs (depth + 1) o)
    else
      pushLine o depth
          (format_header (x :: xs).length key none o.delimiter o.lengthMarker) ::
        (encode_list_item_value x (depth + 1) o ++ encode_list_items xs (depth + 1) o)

/-- Loop of `encode_mixed_array_as_list_items` over the items. -/
def encode_list_items : List Json → Nat → EncOpts → List Str
  | [], _, _ => []
  | x :: xs, depth, o => encode_list_item_value x depth o ++ encode_list_items xs depth o

/-- Source `encode_list_item_value`: primitives and primitive arrays go
inline after the hyphen, objects expand; an array that is not all
primitives produces no output (no matching branch in the source). -/
def encode_list_item_value (v : Json) (depth : Nat) (o : EncOpts) : List Str :=
  match v with
  | .arr xs =>
    if is_array_of_primitives xs then
      [pushItem o depth (encode_inline_array_line xs o.delimiter none o.lengthMarker)]
    else []
  | .obj kvs => encode_object_as_list_item kvs depth o
  | _ => [pushItem o depth (encode_primitive v o.delimiter)]

/-- Source `encode_object_as_list_item`: first pair on the hyphen line,
remaining pairs via `encode_key_value_pair` at depth+1 (that loop is
exactly `encode_object` on the remaining entries). -/
def encode_object_as_list_item : List (Str × Json) → Nat → EncOpts → List Str
  | [], depth, o => [pushLine o depth ['-']]
  | (k1, v1) :: rest, depth, o =>
    (match v1 with
     | .arr xs =>
       if is_array_of_primitives xs then
         [pushItem o depth (encode_inline_array_line xs o.delimiter (some k1) o.lengthMarker)]
       else if is_array_of_objects xs then
         match extract_tabular_header xs with
         | some header =>
           pushItem o depth
               (format_header xs.length (some k1) (some header) o.delimiter o.lengthMarker) ::
             write_tabular_rows xs header (depth + 1) o
         | none =>
           pushItem o depth (encode_key k1 ++ '[' :: (natRepr xs.length ++ [']', ':'])) ::
             encode_objects_as_list_items xs (depth + 1) o
       else
         pushItem o depth (encode_key k1 ++ '[' :: (natRepr xs.length ++ [']', ':'])) ::
           encode_list_items xs (depth + 1) o
     | .obj kvs1 =>
       pushItem o depth (encode_key k1 ++ [':']) ::
         (if kvs1.isEmpty then [] else encode_object kvs1 (depth + 2) o)
     | _ =>
       [pushItem o depth (encode_key k1 ++ ':' :: ' ' :: encode_primitive v1 o.delimiter)]) ++
    encode_object rest (depth + 1) o

/-- Loop of the non-uniform object-array branch of
`encode_object_as_list_item`; non-object items are unreachable under the
`is_array_of_objects` guard. -/
def encode_objects_as_list_items : List Json → Nat → EncOpts → List Str
  | [], _, _ => []
  | x :: xs, depth, o =>
    (match x with
     | .obj kvs => encode_object_as_list_item kvs depth o
     | _ => []) ++ encode_objects_as_list_items xs depth o

end

/-- Source `encode_mixed_array_as_list_items`: header then one list item
per element. -/
def encode_mixed_array_as_list_items (key : Option Str) (items : List Json)
    (depth : Nat) (o : EncOpts) : List Str :=
  pushLine o depth (format_header items.length key none o.delimiter o.lengthMarker) ::
    encode_list_items items (depth + 1) o

/-- The two inlined fall-through branches of `encode_array` are exactly
`encode_mixed_array_as_list_items` on the nonempty list. -/
theorem encode_array_mixed_eq (key : Option Str) (x : Json) (xs : List Json)
    (depth : Nat) (o : EncOpts) :
    pushLine o depth (format_header (x :: xs).length key none o.delimiter o.lengthMarker) ::
      (encode_list_item_value x (depth + 1) o ++ encode_list_items xs (depth + 1) o) =
    encode_mixed_array_as_list_items key (x :: xs) depth o := rfl

/-- Source `encode_value`: a root primitive is the bare encoded
primitive; arrays and objects go through the writer and are joined with
newlines. -/
def encode_value (value : Json) (o : EncOpts) : Str :=
  match value with
  | .arr xs => joinChar '\n' (encode_array none xs 0 o)
  | .obj kvs => joinChar '\n' (encode_object kvs 0 o)
  | v => encode_primitive v o.delimiter

/-- Source `encode` (`tone/_core.py`): normalize, then emit with the
resolved options. -/
def encodeToon (value : PyValue) (o : EncOpts) : Str :=
  encode_value (normalize_value value) o

/-! Embedding of the decoder: `tone/decode/scanner.py`, `tone/decode/parser.py`,
`tone/decode/decoders.py`, and the spec-modelled `tone/decode/validation.py`. -/

/-- Scanner output line (`ParsedLine` in `tone/types.py`). -/
structure ParsedLine where
  raw : Str
  indentLen : Nat
  content : Str
  depth : Nat
  line_number : Nat
deriving DecidableEq

/-- Scanner record of a blank line (`BlankLineInfo`). -/
structure BlankLineInfo where
  line_number : Nat
  indentLen : Nat
  depth : Nat
deriving DecidableEq

/-- Loop of `to_parsed_lines` over the split lines, with `i` the
zero-based index of the first line in the remaining list.  Depth is
`floor(leading_spaces / indent_size)`; Python would raise on a zero
`indent_size`, the repository always passes a positive one. -/
def scanGo (indent_size : Nat) (strict : Bool) :
    List Str → Nat → Except Err (List ParsedLine × List BlankLineInfo)
  | [], _ => .ok ([], [])
  | raw :: restLines, i =>
    let line_number := i + 1
    let ind := (raw.takeWhile (fun c => decide (c = ' '))).length
    let content := raw.drop ind
    if pyStrip content = [] then
      (scanGo indent_size strict restLines (i + 1)).map (fun p =>
        (p.1, ⟨line_number, ind, ind / indent_size⟩ :: p.2))
    else
      let depth := ind / indent_size
      let wsEnd := (raw.takeWhile (fun c => decide (c = ' ' ∨ c = '\t'))).length
      if strict && decide ('\t' ∈ raw.take wsEnd) then .error (.tabIndent line_number)
      else if strict && decide (ind > 0 ∧ ind % indent_size ≠ 0) then
        .error (.indentMult line_number)
      else
        (scanGo indent_size strict restLines (i + 1)).map (fun p =>
          (⟨raw, ind, content, depth, line_number⟩ :: p.1, p.2))

/-- Source `to_parsed_lines`: whitespace-only input yields no lines;
otherwise split on newlines and scan. -/
def to_parsed_lines (source : Str) (indent_size : Nat) (strict : Bool) :
    Except Err (List ParsedLine × List BlankLineInfo) :=
  if pyStrip source = [] then .ok ([], [])
  else scanGo indent_size strict (splitOnChar '\n' source) 0

/-- Line cursor (`LineCursor`): `done` holds the consumed lines most
recent first (so `current()` is `done.head?`), `rest` the lines still to
be consumed (`peek()` is `rest.head?`). -/
structure Cursor where
  done : List ParsedLine
  rest : List ParsedLine
  blanks : List BlankLineInfo
deriving DecidableEq

/-- Cursor `advance`. -/
def cursorAdvance (cur : Cursor) : Cursor :=
  match cur.rest with
  | [] => cur
  | l :: rs => ⟨l :: cur.done, rs, cur.blanks⟩

/-- Decoded value tree.  A decoded float is kept as the exact rational
value of its literal; rounding to the host double is not modelled (the
spec leaves float precision to the host, open question (c)). -/
inductive DVal where
  | null
  | bool (b : Bool)
  | int (n : Int)
  | float (q : ℚ)
  | str (s : Str)
  | arr (xs : List DVal)
  | obj (kvs : List (Str × DVal))

/-- Decoder-internal array header (`ArrayHeaderInfo`). -/
structure ArrayHeaderInfo where
  key : Option Str
  length : Int
  delimiter : Char
  fields : Option (List Str)
  has_length_marker : Bool
deriving DecidableEq

/-- Resolved decode options (`ResolvedDecodeOptions`). -/
structure DecOpts where
  indent : Nat
  strict : Bool
deriving DecidableEq

/-- Default resolved decode options: indent 2, strict. -/
def defaultDecOpts : DecOpts := ⟨2, true⟩

/-- Python `str.find(ch, start)` over the model; `none` models `-1`. -/
def pyFind (content : Str) (c : Char) (start : Nat) : Option Nat :=
  match (content.drop start).findIdx? (fun x => decide (x = c)) with
  | some i => some (start + i)
  | none => none

/-- Source `parse_string_literal`: a token starting with a quote must be
properly closed with nothing after the closing quote, and its body is
unescaped; any other token is returned trimmed. -/
def parse_string_literal (token : Str) : Except Err Str :=
  let trimmed := pyStrip token
  if trimmed.head? = some dqC then
    match find_closing_quote trimmed 0 with
    | none => .error .unterminated
    | some ci =>
      if ci ≠ trimmed.length - 1 then .error .afterQuote
      else unescape_string ((trimmed.take ci).drop 1)
  else .ok trimmed

/-- Source `parse_primitive_token`: empty→empty string; quoted→string;
`true`/`false`/`null`; numeric literal→int (no `.`/`e`) or float;
anything else→the trimmed token as a string.  The `none` fallbacks of
the numeric branches model the `except ValueError: pass` fall-through. -/
def parse_primitive_token (token : Str) : Except Err DVal :=
  let trimmed := pyStrip token
  if trimmed = [] then .ok (.str [])
  else if trimmed.head? = some dqC then (parse_string_literal trimmed).map .str
  else if is_boolean_or_null_literal trimmed then
    if trimmed = ("true").data then .ok (.bool true)
    else if trimmed = ("false").data then .ok (.bool false)
    else .ok .null
  else if is_numeric_literal trimmed then
    if decide (¬('.' ∈ trimmed)) && decide (¬('e' ∈ pyLower trimmed)) then
      match pyIntParse trimmed with
      | some n => .ok (.int n)
      | none => .ok (.str trimmed)
    else
      match pyFloatParse trimmed with
      | some (.fin q) => .ok (.float q)
      | _ => .ok (.str trimmed)
  else .ok (.str trimmed)

/-- Loop of `parse_delimited_values`: split on the delimiter outside
quotes, preserving escape pairs inside quotes, trimming each piece.  The
final piece is appended when it is nonempty or pieces were already
produced. -/
def pdvGo (delim : Char) : Str → Str → Bool → List Str → List Str
  | [], current, _, acc =>
    if current ≠ [] ∨ acc ≠ [] then acc ++ [pyStrip current] else acc
  | [c], current, inq, acc =>
    if c = dqC then pdvGo delim [] (current ++ [c]) (!inq) acc
    else if c = delim ∧ inq = false then pdvGo delim [] [] inq (acc ++ [pyStrip current])
    else pdvGo delim [] (current ++ [c]) inq acc
  | c :: d :: rest, current, inq, acc =>
    if c = bsC ∧ inq = true then pdvGo delim rest (current ++ [c, d]) inq acc
    else if c = dqC then pdvGo delim (d :: rest) (current ++ [c]) (!inq) acc
    else if c = delim ∧ inq = false then
      pdvGo delim (d :: rest) [] inq (acc ++ [pyStrip current])
    else pdvGo delim (d :: rest) (current ++ [c]) inq acc

/-- Source `parse_delimited_values`. -/
def parse_delimited_values (input : Str) (delimiter : Char) : List Str :=
  pdvGo delimiter input [] false []

/-- Source `map_row_values_to_primitives`. -/
def map_row_values_to_primitives (values : List Str) : Except Err (List DVal) :=
  values.mapM parse_primitive_token

/-- Source `parse_bracket_segment`: optional leading `#` length marker,
optional trailing tab/pipe delimiter override, then `int(content)`;
a body the host int parser rejects raises an invalid-length error. -/
def parse_bracket_segment (seg : Str) (default_delimiter : Char) :
    Except Err (Int × Char × Bool) :=
  let marker := seg.head? = some '#'
  let content := if seg.head? = some '#' then seg.drop 1 else seg
  let hasTab := content.getLast? = some '\t'
  let hasPipe := content.getLast? = some '|'
  let delim : Char := if hasTab then '\t' else if hasPipe then '|' else default_delimiter
  let content2 := if hasTab ∨ hasPipe then content.dropLast else content
  match pyIntParse content2 with
  | some n => .ok (n, delim, decide marker)
  | none => .error .invalidLength

/-- Source `parse_array_header_line`: locate the bracket segment, the
optional brace segment and the colon; parse the bracket body and the
field list.  `.ok none` models the Python return value `None` ("not a
header"); `.error` models an exception escaping from the field parser
(the `try` only wraps `parse_bracket_segment`). -/
def parse_array_header_line (content : Str) (default_delimiter : Char) :
    Except Err (Option (ArrayHeaderInfo × Option Str)) :=
  if (content.dropWhile pyWS).head? = some dqC then .ok none
  else
    match pyFind content '[' 0 with
    | none => .ok none
    | some bracket_start =>
      match pyFind content ']' bracket_start with
      | none => .ok none
      | some bracket_end =>
        let braceStart := pyFind content obC bracket_end
        let brace_end : Nat :=
          match braceStart, pyFind content ':' bracket_end with
          | some bst, some ci =>
            if bst < ci then
              match pyFind content cbC bst with
              | some fbe => fbe + 1
              | none => bracket_end + 1
            else bracket_end + 1
          | _, _ => bracket_end + 1
        match pyFind content ':' (max bracket_end brace_end) with
        | none => .ok none
        | some colon_index =>
          let key : Option Str :=
            if bracket_start > 0 then some (content.take bracket_start) else none
          let after_colon := pyStrip (content.drop (colon_index + 1))
          let bracket_content := (content.take bracket_end).drop (bracket_start + 1)
          match parse_bracket_segment bracket_content default_delimiter with
          | .error _ => .ok none
          | .ok (length, delimiter, marker) =>
            let fieldsE : Except Err (Option (List Str)) :=
              match braceStart with
              | some bst =>
                if bst < colon_index then
                  match pyFind content cbC bst with
                  | some fbe =>
                    if fbe < colon_index then
                      ((parse_delimited_values ((content.take fbe).drop (bst + 1))
                          delimiter).mapM
                        (fun f => parse_string_literal (pyStrip f))).map some
                    else .ok none
                  | none => .ok none
                else .ok none
              | none => .ok none
            match fieldsE with
            | .error e => .error e
            | .ok fields =>
              .ok (some (⟨key, length, delimiter, fields, marker⟩,
                if after_colon = [] then none else some after_colon))

/-- Source `parse_unquoted_key`: scan to the first colon; no colon is an
error; the key is the trimmed span before the colon. -/
def parse_unquoted_key (content : Str) (start : Nat) : Except Err (Str × Nat) :=
  let sub := (content.drop start).takeWhile (fun c => decide (c ≠ ':'))
  let endIdx := start + sub.length
  if endIdx ≥ content.length then .error .missingColon
  else .ok (pyStrip sub, endIdx + 1)

/-- Source `parse_quoted_key`. -/
def parse_quoted_key (content : Str) (start : Nat) : Except Err (Str × Nat) :=
  match find_closing_quote content start with
  | none => .error .unterminated
  | some ci =>
    match unescape_string ((content.take ci).drop (start + 1)) with
    | .error e => .error e
    | .ok key =>
      if content.get? (ci + 1) = some ':' then .ok (key, ci + 2)
      else .error .missingColon

/-- Source `parse_key_token`. -/
def parse_key_token (content : Str) (start : Nat) : Except Err (Str × Nat) :=
  if content.get? start = some dqC then parse_quoted_key content start
  else parse_unquoted_key content start

/-- Source `is_array_header_after_hyphen`. -/
def is_array_header_after_hyphen (content : Str) : Bool :=
  decide ((pyStrip content).head? = some '[') &&
    decide (find_unquoted_char content ':' ≠ none)

/-- Source `is_object_first_field_after_hyphen`. -/
def is_object_first_field_after_hyphen (content : Str) : Bool :=
  decide (find_unquoted_char content ':' ≠ none)

/-- Source `is_key_value_line`. -/
def is_key_value_line (line : ParsedLine) : Bool :=
  let content := line.content
  if content.head? = some dqC then
    match find_closing_quote content 0 with
    | none => false
    | some ci => decide (content.get? (ci + 1) = some ':')
  else decide (':' ∈ content)

/-- Modelled from the spec: the module `tone/decode/validation.py` is not
under `src/` (only its importers are).  `assert_expected_count` enforces
"after row/item consumption, the observed count must equal N" and the
tabular row-width check; the spec's error list gives `LengthMismatch` and
`RowWidthMismatch` no strict-mode qualifier, so the check is modelled as
unconditional. -/
def assert_expected_count (observed expected : Int) (label : CLabel) : Except Err Unit :=
  if observed = expected then .ok ()
  else .error (.countMismatch label observed expected)

/-- Modelled from the spec: `validate_no_blank_lines_in_range` — in
strict mode "no blank line may appear between the first and last
row/item line". -/
def validate_no_blank_lines_in_range (startLn endLn : Nat)
    (blanks : List BlankLineInfo) (strict : Bool) : Except Err Unit :=
  if strict && blanks.any (fun b => decide (startLn < b.line_number ∧ b.line_number < endLn)) then
    .error .blankInside
  else .ok ()

/-- Modelled from the spec: `validate_no_extra_tabular_rows` — in strict
mode "no additional rows may follow at the same depth". -/
def validate_no_extra_tabular_rows (cur : Cursor) (rowDepth : Nat) : Except Err Unit :=
  match cur.rest.head? with
  | some l => if l.depth = rowDepth then .error .extraRows else .ok ()
  | none => .ok ()

/-- Modelled from the spec: `validate_no_extra_list_items` — in strict
mode "no additional items may follow at the same depth". -/
def validate_no_extra_list_items (cur : Cursor) (itemDepth : Nat) : Except Err Unit :=
  match cur.rest.head? with
  | some l =>
    if l.depth = itemDepth ∧ l.content.take 2 = ['-', ' '] then .error .extraItems
    else .ok ()
  | none => .ok ()

/-- Source `decode_inline_primitive_array`. -/
def decode_inline_primitive_array (hdr : ArrayHeaderInfo) (inline_values : Str) :
    Except Err DVal :=
  if pyStrip inline_values = [] then
    (assert_expected_count 0 hdr.length .inlineItems).map (fun _ => .arr [])
  else
    match map_row_values_to_primitives (parse_delimited_values inline_values hdr.delimiter) with
    | .error e => .error e
    | .ok prims =>
      (assert_expected_count (prims.length : Int) hdr.length .inlineItems).map
        (fun _ => .arr prims)

/-- Row loop of `decode_tabular_array`: consume lines at exactly
`rowDepth` while fewer than the declared count have been read, checking
each row's width against the field count and assembling the row object
in field order. -/
def tabLoop (fuel : Nat) (delim : Char) (fields : List Str) (rowDepth : Nat)
    (target : Int) (cur : Cursor) (objects : List DVal) (startLn endLn : Option Nat) :
    Except Err (List DVal × Cursor × Option Nat × Option Nat) :=
  match fuel with
  | 0 => .error .fuelOut
  | fuel + 1 =>
    if (objects.length : Int) < target then
      match cur.rest with
      | [] => .ok (objects, cur, startLn, endLn)
      | line :: rs =>
        if line.depth = rowDepth then
          let cur2 : Cursor := ⟨line :: cur.done, rs, cur.blanks⟩
          let values := parse_delimited_values line.content delim
          match assert_expected_count (values.length : Int) (fields.length : Int) .rowValues with
          | .error e => .error e
          | .ok _ =>
            match map_row_values_to_primitives values with
            | .error e => .error e
            | .ok prims =>
              let obj := DVal.obj ((fields.zip prims).foldl
                (fun m kv => pyDictInsert m kv.1 kv.2) [])
              tabLoop fuel delim fields rowDepth target cur2 (objects ++ [obj])
                (if startLn = none then some line.line_number else startLn)
                (some line.line_number)
        else .ok (objects, cur, startLn, endLn)
    else .ok (objects, cur, startLn, endLn)

/-- Source `decode_tabular_array`: row loop, then the declared-length
check, the strict blank-line check over the consumed row range and the
strict extra-row check. -/
def decode_tabular_array (hdr : ArrayHeaderInfo) (cur : Cursor) (base : Nat)
    (o : DecOpts) : Except Err (DVal × Cursor) :=
  let rowDepth := base + 1
  let fields := hdr.fields.getD []
  match tabLoop (cur.rest.length + 1) hdr.delimiter fields rowDepth hdr.length cur [] none none with
  | .error e => .error e
  | .ok (objects, cur2, sLn, eLn) =>
    match assert_expected_count (objects.length : Int) hdr.length .tabularRows with
    | .error e => .error e
    | .ok _ =>
      match (match sLn, eLn with
             | some s, some e2 =>
               if o.strict then validate_no_blank_lines_in_range s e2 cur2.blanks o.strict
               else .ok ()
             | _, _ => .ok ()) with
      | .error e => .error e
      | .ok _ =>
        match (if o.strict then validate_no_extra_tabular_rows cur2 rowDepth else .ok ()) with
        | .error e => .error e
        | .ok _ => .ok (.arr objects, cur2)

/-! Recursive decoder driver (`tone/decode/decoders.py`).  The mutual
recursion is bounded by an explicit `fuel` parameter; every recursive
step either consumes a line or moves down a bounded dispatch chain, so
the fuel chosen by `decodeToon` is always sufficient and `.fuelOut` is
unreachable from the top-level entry point. -/

mutual

/-- Loop of `decode_object`: consume key-value lines at exactly the base
depth. -/
def dvObjectLoop (fuel : Nat) (cur : Cursor) (base : Nat) (o : DecOpts)
    (acc : List (Str × DVal)) : Except Err (List (Str × DVal) × Cursor) :=
  match fuel with
  | 0 => .error .fuelOut
  | fuel + 1 =>
    match cur.rest.head? with
    | none => .ok (acc, cur)
    | some line =>
      if line.depth < base then .ok (acc, cur)
      else if line.depth = base then
        match dvKeyValuePair fuel line cur base o with
        | .error e => .error e
        | .ok (k, v, cur2) => dvObjectLoop fuel cur2 base o (pyDictInsert acc k v)
      else .ok (acc, cur)
termination_by structural fuel

/-- Source `decode_key_value_pair`: advance past the line, then decode
its content. -/
def dvKeyValuePair (fuel : Nat) (line : ParsedLine) (cur : Cursor) (base : Nat)
    (o : DecOpts) : Except Err (Str × DVal × Cursor) :=
  match fuel with
  | 0 => .error .fuelOut
  | fuel + 1 => dvKeyValue fuel line.content (cursorAdvance cur) base o
termination_by structural fuel

/-- Source `decode_key_value`: an array header with a truthy key decodes
an array; otherwise a plain `key:[ value]` line (`decode_key_value`
returns `followDepth = base_depth + 1` on every path, so it is left
implicit). -/
def dvKeyValue (fuel : Nat) (content : Str) (cur : Cursor) (base : Nat)
    (o : DecOpts) : Except Err (Str × DVal × Cursor) :=
  match fuel with
  | 0 => .error .fuelOut
  | fuel + 1 =>
    match parse_array_header_line content ',' with
    | .error e => .error e
    | .ok (some (hdr, inline)) =>
      match hdr.key with
      | some k =>
        if k = [] then dvKeyValuePlain fuel content cur base o
        else
          match dvArrayFromHeader fuel hdr inline cur base o with
          | .error e => .error e
          | .ok (v, cur2) => .ok (k, v, cur2)
      | none => dvKeyValuePlain fuel content cur base o
    | .ok none => dvKeyValuePlain fuel content cur base o
termination_by structural fuel

/-- Plain branch of `decode_key_value`: parse the key, then an inline
primitive, a nested object at depth base+1, or an empty object. -/
def dvKeyValuePlain (fuel : Nat) (content : Str) (cur : Cursor) (base : Nat)
    (o : DecOpts) : Except Err (Str × DVal × Cursor) :=
  match fuel with
  | 0 => .error .fuelOut
  | fuel + 1 =>
    match parse_key_token content 0 with
    | .error e => .error e
    | .ok (key, endPos) =>
      let rest := pyStrip (content.drop endPos)
      if rest = [] then
        match cur.rest.head? with
        | some nl =>
          if nl.depth > base then
            match dvObjectLoop fuel cur (base + 1) o [] with
            | .error e => .error e
            | .ok (kvs, cur2) => .ok (key, .obj kvs, cur2)
          else .ok (key, .obj [], cur)
        | none => .ok (key, .obj [], cur)
      else
        match parse_primitive_token rest with
        | .error e => .error e
        | .ok v => .ok (key, v, cur)
termination_by structural fuel

/-- Source `decode_array_from_header`: inline values decode in place;
a nonempty field list selects the tabular layout; otherwise the list
layout. -/
def dvArrayFromHeader (fuel : Nat) (hdr : ArrayHeaderInfo) (inline : Option Str)
    (cur : Cursor) (base : Nat) (o : DecOpts) : Except Err (DVal × Cursor) :=
  match fuel with
  | 0 => .error .fuelOut
  | fuel + 1 =>
    match inline with
    | some iv =>
      match decode_inline_primitive_array hdr iv with
      | .error e => .error e
      | .ok v => .ok (v, cur)
    | none =>
      match hdr.fields with
      | some fs =>
        if fs.length > 0 then decode_tabular_array hdr cur base o
        else dvListArray fuel hdr cur base o
      | none => dvListArray fuel hdr cur base o
termination_by structural fuel

/-- Source `decode_list_array`: item loop, declared-length check, strict
blank-line check over the consumed item range, strict extra-item
check. -/
def dvListArray (fuel : Nat) (hdr : ArrayHeaderInfo) (cur : Cursor) (base : Nat)
    (o : DecOpts) : Except Err (DVal × Cursor) :=
  match fuel with
  | 0 => .error .fuelOut
  | fuel + 1 =>
    match dvListLoop fuel hdr (base + 1) o cur [] none none with
    | .error e => .error e
    | .ok (items, cur2, sLn, eLn) =>
      match assert_expected_count (items.length : Int) hdr.length .listItems with
      | .error e => .error e
      | .ok _ =>
        match (match sLn, eLn with
               | some s, some e2 =>
                 if o.strict then validate_no_blank_lines_in_range s e2 cur2.blanks o.strict
                 else .ok ()
               | _, _ => .ok ()) with
        | .error e => .error e
        | .ok _ =>
          match (if o.strict then validate_no_extra_list_items cur2 (base + 1) else .ok ()) with
          | .error e => .error e
          | .ok _ => .ok (.arr items, cur2)
termination_by structural fuel

/-- Item loop of `decode_list_array`: consume `- ` lines at exactly the
item depth while fewer than the declared count have been read. -/
def dvListLoop (fuel : Nat) (hdr : ArrayHeaderInfo) (itemDepth : Nat) (o : DecOpts)
    (cur : Cursor) (items : List DVal) (startLn endLn : Option Nat) :
    Except Err (List DVal × Cursor × Option Nat × Option Nat) :=
  match fuel with
  | 0 => .error .fuelOut
  | fuel + 1 =>
    if (items.length : Int) < hdr.length then
      match cur.rest.head? with
      | none => .ok (items, cur, startLn, endLn)
      | some line =>
        if line.depth < itemDepth then .ok (items, cur, startLn, endLn)
        else if line.depth = itemDepth ∧ line.content.take 2 = ['-', ' '] then
          let sLn := if startLn = none then some line.line_number else startLn
          match dvListItem fuel cur itemDepth hdr.delimiter o with
          | .error e => .error e
          | .ok (item, cur2) =>
            let eLn : Option Nat :=
              match cur2.done.head? with
              | some cl => some cl.line_number
              | none => some line.line_number
            dvListLoop fuel hdr itemDepth o cur2 (items ++ [item]) sLn eLn
        else .ok (items, cur, startLn, endLn)
    else .ok (items, cur, startLn, endLn)
termination_by structural fuel

/-- Source `decode_list_item`: consume the hyphen line; its remainder is
a nested array header, an object first field, or a primitive.  The
`active_delimiter` parameter is unused, as in the source (nested headers
are parsed with the comma default). -/
def dvListItem (fuel : Nat) (cur : Cursor) (itemDepth : Nat) (_activeDelim : Char)
    (o : DecOpts) : Except Err (DVal × Cursor) :=
  match fuel with
  | 0 => .error .fuelOut
  | fuel + 1 =>
    match cur.rest with
    | [] => .error .noContent
    | line :: _ =>
      let cur2 := cursorAdvance cur
      let after := line.content.drop 2
      if is_array_header_after_hyphen after then
        match parse_array_header_line after ',' with
        | .error e => .error e
        | .ok (some (hdr2, inline2)) => dvArrayFromHeader fuel hdr2 inline2 cur2 itemDepth o
        | .ok none => dvListItemTail fuel line cur2 itemDepth o
      else dvListItemTail fuel line cur2 itemDepth o
termination_by structural fuel

/-- Fall-through of `decode_list_item` when the remainder is not decoded
as an array header. -/
def dvListItemTail (fuel : Nat) (line : ParsedLine) (cur : Cursor) (itemDepth : Nat)
    (o : DecOpts) : Except Err (DVal × Cursor) :=
  match fuel with
  | 0 => .error .fuelOut
  | fuel + 1 =>
    let after := line.content.drop 2
    if is_object_first_field_after_hyphen after then
      dvObjFromListItem fuel line cur itemDepth o
    else
      match parse_primitive_token after with
      | .error e => .error e
      | .ok v => .ok (v, cur)
termination_by structural fuel

/-- Source `decode_object_from_list_item`: first pair from the hyphen
line, remaining non-hyphen pairs at the follow depth (base+1). -/
def dvObjFromListItem (fuel : Nat) (line : ParsedLine) (cur : Cursor) (base : Nat)
    (o : DecOpts) : Except Err (DVal × Cursor) :=
  match fuel with
  | 0 => .error .fuelOut
  | fuel + 1 =>
    let after := line.content.drop 2
    match dvKeyValue fuel after cur base o with
    | .error e => .error e
    | .ok (k, v, cur2) =>
      match dvObjItemLoop fuel cur2 (base + 1) o (pyDictInsert [] k v) with
      | .error e => .error e
      | .ok (kvs, cur3) => .ok (.obj kvs, cur3)
termination_by structural fuel

/-- Follow-up loop of `decode_object_from_list_item`: consume non-hyphen
key-value lines at exactly the follow depth. -/
def dvObjItemLoop (fuel : Nat) (cur : Cursor) (fd : Nat) (o : DecOpts)
    (acc : List (Str × DVal)) : Except Err (List (Str × DVal) × Cursor) :=
  match fuel with
  | 0 => .error .fuelOut
  | fuel + 1 =>
    match cur.rest.head? with
    | none => .ok (acc, cur)
    | some line =>
      if line.depth < fd then .ok (acc, cur)
      else if line.depth = fd ∧ ¬(line.content.take 2 = ['-', ' ']) then
        match dvKeyValuePair fuel line cur fd o with
        | .error e => .error e
        | .ok (k, v, cur2) => dvObjItemLoop fuel cur2 fd o (pyDictInsert acc k v)
      else .ok (acc, cur)
termination_by structural fuel

end

/-- Single-primitive and root-object branches of
`decode_value_from_lines`. -/
def decodeRootRest (fuel : Nat) (cur : Cursor) (o : DecOpts) (first : ParsedLine) :
    Except Err DVal :=
  if cur.done.length + cur.rest.length = 1 ∧ ¬(is_key_value_line first = true) then
    parse_primitive_token (pyStrip first.content)
  else
    match dvObjectLoop fuel cur 0 o [] with
    | .error e => .error e
    | .ok (kvs, _) => .ok (.obj kvs)

/-- Source `decode_value_from_lines`: a root array when the first line
looks like a keyless header, a single primitive for a one-line document
without a key-value shape, otherwise a root object. -/
def decode_value_from_lines (fuel : Nat) (cur : Cursor) (o : DecOpts) :
    Except Err DVal :=
  match cur.rest.head? with
  | none => .error .noContent
  | some first =>
    if is_array_header_after_hyphen first.content then
      match parse_array_header_line first.content ',' with
      | .error e => .error e
      | .ok (some (hdr, inline)) =>
        match dvArrayFromHeader fuel hdr inline (cursorAdvance cur) 0 o with
        | .error e => .error e
        | .ok (v, _) => .ok v
      | .ok none => decodeRootRest fuel cur o first
    else decodeRootRest fuel cur o first

/-- Source `decode` (`tone/_core.py`): scan, reject empty input, then
decode from the line cursor.  The fuel is an upper bound on the length
of any dispatch chain of the recursive driver on this input. -/
def decodeToon (input : Str) (o : DecOpts) : Except Err DVal :=
  match to_parsed_lines input o.indent o.strict with
  | .error e => .error e
  | .ok (lines, blanks) =>
    if lines.length = 0 then .error .emptyInput
    else decode_value_from_lines (8 * input.length + 64) ⟨[], lines, blanks⟩ o

/-! Theorems about the claims. -/

/-- Safety condition spelled out exactly as claim C4 states it:
non-empty, no leading/trailing whitespace, not a boolean/null/numeric-like
literal, containing no colon, brackets, braces, double quote, backslash,
newline, carriage return, tab, or the active delimiter, and not starting
with a hyphen. -/
def claimSafeUnquoted (s : Str) (delim : Char) : Prop :=
  s ≠ [] ∧ s = pyStrip s ∧
  is_boolean_or_null_literal s = false ∧ is_numeric_like s = false ∧
  (∀ c ∈ s, c ≠ ':' ∧ c ≠ '[' ∧ c ≠ ']' ∧ c ≠ obC ∧ c ≠ cbC ∧ c ≠ dqC ∧ c ≠ bsC ∧
    c ≠ '\n' ∧ c ≠ '\r' ∧ c ≠ '\t' ∧ c ≠ delim) ∧
  s.head? ≠ some '-'

instance (s : Str) (d : Char) : Decidable (claimSafeUnquoted s d) := by
  unfold claimSafeUnquoted; infer_instance

/-- Source safety predicate agrees with the claim's spelled-out
condition. -/
theorem is_safe_unquoted_iff (s : Str) (d : Char) :
    is_safe_unquoted s d = true ↔ claimSafeUnquoted s d := by
  unfold is_safe_unquoted
  split_ifs with h1 h2 h3 h4 h5 h6 h7 h8 h9
  · simp only [false_iff]
    rintro ⟨hne, -⟩; exact hne h1
  · simp only [false_iff]
    rintro ⟨-, hstrip, -⟩; exact h2 hstrip
  · simp only [false_iff]
    rintro ⟨-, -, hb, hn, -⟩
    rcases Bool.or_eq_true_iff.mp h3 with h | h
    · rw [hb] at h; exact Bool.false_ne_true h
    · rw [hn] at h; exact Bool.false_ne_true h
  · simp only [false_iff]
    rintro ⟨-, -, -, -, hc, -⟩
    exact ((hc ':' h4).1) rfl
  · simp only [false_iff]
    rintro ⟨-, -, -, -, hc, -⟩
    rcases h5 with h | h
    · exact ((hc dqC h).2.2.2.2.2.1) rfl
    · exact ((hc bsC h).2.2.2.2.2.2.1) rfl
  · simp only [false_iff]
    rintro ⟨-, -, -, -, hc, -⟩
    rcases List.any_eq_true.mp h6 with ⟨c, hm, hp⟩
    rcases of_decide_eq_true hp with h | h | h | h
    · exact ((hc c hm).2.1) h
    · exact ((hc c hm).2.2.1) h
    · exact ((hc c hm).2.2.2.1) h
    · exact ((hc c hm).2.2.2.2.1) h
  · simp only [false_iff]
    rintro ⟨-, -, -, -, hc, -⟩
    rcases List.any_eq_true.mp h7 with ⟨c, hm, hp⟩
    rcases of_decide_eq_true hp with h | h | h
    · exact ((hc c hm).2.2.2.2.2.2.2.1) h
    · exact ((hc c hm).2.2.2.2.2.2.2.2.1) h
    · exact ((hc c hm).2.2.2.2.2.2.2.2.2.1) h
  · simp only [false_iff]
    rintro ⟨-, -, -, -, hc, -⟩
    exact ((hc d h8).2.2.2.2.2.2.2.2.2.2) rfl
  · simp only [false_iff]
    rintro ⟨-, -, -, -, -, hh⟩; exact hh h9
  · simp only [true_iff]
    refine ⟨h1, not_not.mp h2, ?_, ?_, ?_, h9⟩
    · cases hb : is_boolean_or_null_literal s with
      | false => rfl
      | true => exact absurd (by rw [hb]; rfl) h3
    · cases hn : is_numeric_like s with
      | false => rfl
      | true => exact absurd (by rw [hn, Bool.or_true]) h3
    · intro c hm
      refine ⟨?_, ?_, ?_, ?_, ?_, ?_, ?_, ?_, ?_, ?_, ?_⟩ <;> intro he <;> subst he
      · exact h4 hm
      · exact h6 (List.any_eq_true.mpr ⟨_, hm, by decide⟩)
      · exact h6 (List.any_eq_true.mpr ⟨_, hm, by decide⟩)
      · exact h6 (List.any_eq_true.mpr ⟨_, hm, by decide⟩)
      · exact h6 (List.any_eq_true.mpr ⟨_, hm, by decide⟩)
      · exact h5 (Or.inl hm)
      · exact h5 (Or.inr hm)
      · exact h7 (List.any_eq_true.mpr ⟨_, hm, by decide⟩)
      · exact h7 (List.any_eq_true.mpr ⟨_, hm, by decide⟩)
      · exact h7 (List.any_eq_true.mpr ⟨_, hm, by decide⟩)
      · exact h8 hm

/-- Claim C4: for every string S and active delimiter, if S satisfies the
spelled-out safe-unquoted condition then encoding S yields exactly S;
otherwise encoding S yields a double quote, then escape(S), then a double
quote. -/
theorem C4_quoting_faithfulness (s : Str) (delim : Char) :
    (claimSafeUnquoted s delim → encode_string_literal s delim = s) ∧
    (¬claimSafeUnquoted s delim →
      encode_string_literal s delim = dqC :: escape_string s ++ [dqC]) := by
  constructor
  · intro h
    unfold encode_string_literal
    rw [if_pos ((is_safe_unquoted_iff s delim).mpr h)]
  · intro h
    unfold encode_string_literal
    rw [if_neg (fun hb => h ((is_safe_unquoted_iff s delim).mp hb))]

/-- Witness for C4 at concrete inputs: `hello world` is safe and encodes
to itself; ` x` (leading space) is unsafe and encodes quoted. -/
theorem C4_quoting_faithfulness_witness :
    encode_string_literal (("hello world").data) ',' = ("hello world").data ∧
    encode_string_literal ((" x").data) ',' = dqC :: escape_string ((" x").data) ++ [dqC] :=
  ⟨(C4_quoting_faithfulness (("hello world").data) ',').1 (by decide),
   (C4_quoting_faithfulness ((" x").data) ',').2 (by decide)⟩

/-- Claim C10: a token whose trimmed form is empty decodes to the empty
string and never raises; the delimited splitter produces such empty
tokens between consecutive delimiters (`1,,3` splits into `1`, ``, `3`),
so `x[3]: 1,,3` decodes with an empty-string middle element. -/
theorem C10_empty_token_slots :
    (∀ t : Str, pyStrip t = [] → parse_primitive_token t = .ok (.str [])) ∧
    parse_delimited_values (("1,,3").data) ',' = [['1'], [], ['3']] ∧
    map_row_values_to_primitives [['1'], [], ['3']] =
      .ok [.int 1, .str [], .int 3] ∧
    decodeToon (("x[3]: 1,,3").data) defaultDecOpts =
      .ok (.obj [(['x'], .arr [.int 1, .str [], .int 3])]) := by
  refine ⟨?_, rfl, rfl, rfl⟩
  intro t ht
  unfold parse_primitive_token
  rw [ht]
  rfl

/-- Witness for C10: the all-whitespace token `"  "` trims to empty and
decodes as the empty string. -/
theorem C10_empty_token_slots_witness :
    pyStrip (("  ").data) = [] ∧
    parse_primitive_token (("  ").data) = .ok (.str []) :=
  ⟨rfl, C10_empty_token_slots.1 (("  ").data) rfl⟩

/-! Lemmas about the digit-run parser and Python numeric parsing, used
to settle claims C3 and C1. -/

/-- Whatever `duLoop` leaves unconsumed is drawn from the input. -/
theorem duLoop_rest_mem (s : Str) (acc : List Char) :
    ∀ c ∈ (duLoop s acc).2, c ∈ s := by
  induction s, acc using duLoop.induct with
  | case1 acc =>
    intro x hx
    exact absurd hx (by rw [show duLoop [] acc = (acc, []) from rfl]; simp)
  | case2 acc d rest2 hd ih =>
    intro x hx
    have hred : duLoop ('_' :: d :: rest2) acc = duLoop rest2 (acc ++ [d]) := by
      rw [show duLoop ('_' :: d :: rest2) acc =
        if asciiDigit d = true then duLoop rest2 (acc ++ [d])
        else (acc, '_' :: d :: rest2) from rfl, if_pos hd]
    rw [hred] at hx
    exact List.mem_cons_of_mem _ (List.mem_cons_of_mem _ (ih x hx))
  | case3 acc d rest2 hd =>
    intro x hx
    have hred : duLoop ('_' :: d :: rest2) acc = (acc, '_' :: d :: rest2) := by
      rw [show duLoop ('_' :: d :: rest2) acc =
        if asciiDigit d = true then duLoop rest2 (acc ++ [d])
        else (acc, '_' :: d :: rest2) from rfl, if_neg hd]
    rw [hred] at hx
    exact hx
  | case4 acc =>
    intro x hx
    rw [show duLoop ['_'] acc = (acc, ['_']) from rfl] at hx
    exact hx
  | case5 c rest acc hne hd ih =>
    intro x hx
    have hred : duLoop (c :: rest) acc = duLoop rest (acc ++ [c]) := by
      rw [duLoop.eq_def]
      dsimp only
      rw [if_neg hne, if_pos hd]
    rw [hred] at hx
    exact List.mem_cons_of_mem _ (ih x hx)
  | case6 c rest acc hne hd =>
    intro x hx
    have hred : duLoop (c :: rest) acc = (acc, c :: rest) := by
      rw [duLoop.eq_def]
      dsimp only
      rw [if_neg hne, if_neg hd]
    rw [hred] at hx
    exact hx

/-- The rest returned by `parseDigitsU` is drawn from the input. -/
theorem parseDigitsU_rest_mem {s ds r : Str} (h : parseDigitsU s = some (ds, r)) :
    ∀ c ∈ r, c ∈ s := by
  cases s with
  | nil => cases h
  | cons c rest =>
    simp only [parseDigitsU] at h
    by_cases hd : asciiDigit c = true
    · rw [if_pos hd] at h
      injection h with h2
      intro x hx
      have hm : x ∈ (duLoop rest [c]).2 := by rw [h2]; exact hx
      exact List.mem_cons_of_mem _ (duLoop_rest_mem rest [c] x hm)
    · rw [if_neg hd] at h
      cases h

/-- Membership in the stripped string implies membership in the
original. -/
theorem mem_of_mem_pyStrip {c : Char} {s : Str} (h : c ∈ pyStrip s) : c ∈ s := by
  unfold pyStrip at h
  rw [List.mem_reverse] at h
  have h2 := (List.dropWhile_sublist pyWS).mem h
  rw [List.mem_reverse] at h2
  exact (List.dropWhile_sublist pyWS).mem h2

/-- With no dot in the input, the mantissa is a bare digit run. -/
theorem mantissa_no_dot {s1 ip fp rest : Str}
    (h : mantissaParse s1 = some (ip, fp, rest)) (hdot : '.' ∉ s1) :
    parseDigitsU s1 = some (ip, rest) ∧ fp = [] := by
  unfold mantissaParse at h
  cases hpd : parseDigitsU s1 with
  | some pr =>
    obtain ⟨ip0, rest1⟩ := pr
    rw [hpd] at h
    dsimp only at h
    split at h
    · exact absurd (parseDigitsU_rest_mem hpd '.' (List.mem_cons_self _ _)) hdot
    · cases h
      exact ⟨rfl, rfl⟩
  | none =>
    rw [hpd] at h
    dsimp only at h
    split at h
    · exact absurd (List.mem_cons_self _ _) hdot
    · cases h

/-- With no `e`/`E` in the input, an exponent parse that consumes
everything forces the input to be empty. -/
theorem expo_no_e {rest : Str} {ex : Int}
    (h : expoParse rest = some (ex, [])) (he : ∀ c ∈ rest, Char.toLower c ≠ 'e') :
    rest = [] := by
  cases rest with
  | nil => rfl
  | cons e2 r3 =>
    unfold expoParse at h
    dsimp only at h
    by_cases hee : e2 = 'e' ∨ e2 = 'E'
    · have hlow : Char.toLower e2 = 'e' := by
        rcases hee with h1 | h1 <;> subst h1 <;> decide
      exact absurd hlow (he e2 (List.mem_cons_self _ _))
    · rw [if_neg hee] at h
      simp at h

/-- The sign-splitting match of the numeric parsers only returns the
input or its tail. -/
theorem sign_split_mem (t : Str) (neg : Bool) (s1 : Str)
    (h : (match t with
          | '+' :: r => ((false : Bool), r)
          | '-' :: r => ((true : Bool), r)
          | _ => ((false : Bool), t)) = (neg, s1)) :
    ∀ c ∈ s1, c ∈ t := by
  split at h <;> injection h with h1 h2 <;> subst h2 <;> intro c hc <;>
    first
      | exact List.mem_cons_of_mem _ hc
      | exact hc

/-- A finite float-parse of a trimmed token with no dot and no `e` means
the host int parser also accepts the token. -/
theorem pyFloat_fin_no_dot_e {t : Str} {q : ℚ} (htrim : pyStrip t = t)
    (hdot : ¬('.' ∈ t)) (he : ¬('e' ∈ pyLower t))
    (hf : pyFloatParse t = some (.fin q)) :
    ∃ n, pyIntParse t = some n := by
  unfold pyFloatParse at hf
  rw [htrim] at hf
  simp only [] at hf
  rcases hsgn : (match t with
      | '+' :: r => ((false : Bool), r)
      | '-' :: r => ((true : Bool), r)
      | _ => ((false : Bool), t)) with ⟨neg, s1⟩
  rw [hsgn] at hf
  simp only [] at hf
  have hmem := sign_split_mem t neg s1 hsgn
  have hdot1 : '.' ∉ s1 := fun hm => hdot (hmem _ hm)
  have he1 : ∀ c ∈ s1, Char.toLower c ≠ 'e' := by
    intro c hc hlow
    exact he (hlow ▸ List.mem_map_of_mem Char.toLower (hmem c hc))
  split_ifs at hf with hinf hnan
  · simp at hf
  · simp at hf
  all_goals
    cases hm2 : mantissaParse s1 with
    | none =>
      rw [hm2] at hf
      cases hf
    | some m =>
      obtain ⟨ip, fp, rest0⟩ := m
      rw [hm2] at hf
      dsimp only at hf
      obtain ⟨hpd, -⟩ := mantissa_no_dot hm2 hdot1
      cases hex : expoParse rest0 with
      | none =>
        rw [hex] at hf
        cases hf
      | some er =>
        obtain ⟨ex, r⟩ := er
        rw [hex] at hf
        cases r with
        | nil =>
          have hrest : rest0 = [] :=
            expo_no_e hex (fun c hc => he1 c (parseDigitsU_rest_mem hpd c hc))
          subst hrest
          refine ⟨if neg then -(digitsVal ip : Int) else (digitsVal ip : Int), ?_⟩
          unfold pyIntParse
          rw [htrim]
          simp only []
          rw [hsgn]
          simp only []
          rw [hpd]
        | cons x xs =>
          dsimp only at hf
          cases hf

/-- A token accepted by `is_numeric_literal` has a finite float parse. -/
theorem is_numeric_literal_fin {t : Str} (h : is_numeric_literal t = true) :
    ∃ q, pyFloatParse t = some (.fin q) := by
  unfold is_numeric_literal at h
  split_ifs at h
  cases hp : pyFloatParse t with
  | none => rw [hp] at h; cases h
  | some fl =>
    rw [hp] at h
    cases fl with
    | fin q => exact ⟨q, rfl⟩
    | inf b => cases h
    | nan => cases h

/-- Counterexample to claim C3: the trimmed unquoted token `+5` does not
match the claim's regex `-?[0-9]+(\.[0-9]+)?([eE][+-]?[0-9]+)?` (checked
via `numLikeCore`, the embedding of exactly that regex) and is not
`true`/`false`/`null`, so the claim says it decodes as the string `+5`;
the decoder's primitive token parser returns the number 5 instead,
because `is_numeric_literal` is based on the host float parser. -/
theorem C3_plus_token_cex :
    numLikeCore (("+5").data) = false ∧
    is_boolean_or_null_literal (("+5").data) = false ∧
    parse_primitive_token (("+5").data) = .ok (.int 5) ∧
    DVal.int 5 ≠ DVal.str (("+5").data) :=
  ⟨rfl, rfl, rfl, nofun⟩

/-- Claim C3 as amended: for every trimmed unquoted token (not starting
with a double quote and not a boolean/null literal), the primitive token
parser returns a number exactly when `is_numeric_literal` accepts the
token — acceptance by the host float parser as a finite value (optional
`+`/`-` sign, digits with optional single underscores between them,
optional dot with digits on at least one side, optional exponent) with
no forbidden leading zero (first character `0` with second character not
`.` on length > 1).  It parses as an integer when the token has no `.`
and no `e`/`E` (the host int parser then accepts the token) and as a
float otherwise; every other token decodes as the string itself, e.g.
the token `05` decodes as the string `05`. -/
theorem C3_numeric_token_amended (t : Str) (htrim : pyStrip t = t)
    (hq : t.head? ≠ some dqC) (hb : is_boolean_or_null_literal t = false) :
    (is_numeric_literal t = true →
      (¬('.' ∈ t) ∧ ¬('e' ∈ pyLower t) →
        ∃ n, pyIntParse t = some n ∧ parse_primitive_token t = .ok (.int n)) ∧
      (('.' ∈ t) ∨ ('e' ∈ pyLower t) →
        ∃ q, pyFloatParse t = some (.fin q) ∧ parse_primitive_token t = .ok (.float q))) ∧
    (is_numeric_literal t = false → parse_primitive_token t = .ok (.str t)) ∧
    parse_primitive_token (("05").data) = .ok (.str (("05").data)) := by
  refine ⟨?_, ?_, rfl⟩
  · intro hnum
    have hne : t ≠ [] := by
      intro he2
      rw [he2] at hnum
      exact absurd hnum (by decide)
    constructor
    · rintro ⟨hdot, he⟩
      obtain ⟨q, hfq⟩ := is_numeric_literal_fin hnum
      obtain ⟨n, hn⟩ := pyFloat_fin_no_dot_e htrim hdot he hfq
      refine ⟨n, hn, ?_⟩
      unfold parse_primitive_token
      rw [htrim, if_neg hne, if_neg hq, if_neg (by rw [hb]; exact Bool.false_ne_true),
        if_pos hnum,
        if_pos (show (decide (¬('.' ∈ t)) && decide (¬('e' ∈ pyLower t))) = true by
          simp [hdot, he]),
        hn]
    · intro hde
      obtain ⟨q, hfq⟩ := is_numeric_literal_fin hnum
      refine ⟨q, hfq, ?_⟩
      unfold parse_primitive_token
      rw [htrim, if_neg hne, if_neg hq, if_neg (by rw [hb]; exact Bool.false_ne_true),
        if_pos hnum]
      have hcond : (decide (¬('.' ∈ t)) && decide (¬('e' ∈ pyLower t))) = false := by
        rcases hde with h | h
        · rw [decide_eq_false (not_not_intro h)]
          rfl
        · rw [decide_eq_false (not_not_intro h), Bool.and_false]
      rw [if_neg (by rw [hcond]; exact Bool.false_ne_true), hfq]
  · intro hnum
    by_cases hne : t = []
    · subst hne
      rfl
    · unfold parse_primitive_token
      rw [htrim, if_neg hne, if_neg hq, if_neg (by rw [hb]; exact Bool.false_ne_true),
        if_neg (by rw [hnum]; exact Bool.false_ne_true)]

/-- Witness for C3 at a concrete input: the token `7` is numeric, has no
dot or exponent, and decodes as the integer 7. -/
theorem C3_numeric_token_amended_witness :
    parse_primitive_token (['7']) = .ok (.int 7) := by
  obtain ⟨n, hn, hp⟩ :=
    ((C3_numeric_token_amended ['7'] rfl (by decide) rfl).1 (by decide)).1
      ⟨by decide, by decide⟩
  have h7 : pyIntParse ['7'] = some 7 := by decide
  rw [h7] at hn
  injection hn with hn2
  subst hn2
  exact hp

/-- Counterexample to claim C9: the mapping `{None: 1}` (one input key)
normalizes to an empty mapping — the normalizer drops keys that are not
host strings/ints/floats/bools instead of keeping one entry per input
key. -/
theorem C9_none_key_cex :
    normalize_value (.dict [(PyKey.kNone, PyValue.int 1)]) = .obj [] ∧
    [(PyKey.kNone, PyValue.int 1)].length = 1 ∧
    ([] : List (Str × Json)).length = 0 :=
  ⟨rfl, rfl, rfl⟩

/-- Inserting a fresh key into the dict model appends it. -/
theorem pyDictInsert_fresh {α : Type} (m : List (Str × α)) (k : Str) (v : α)
    (h : ∀ p ∈ m, p.1 ≠ k) : pyDictInsert m k v = m ++ [(k, v)] := by
  unfold pyDictInsert
  rw [if_neg]
  intro hany
  rcases List.any_eq_true.mp hany with ⟨p, hp, he⟩
  exact h p hp (of_decide_eq_true he)

/-- The dict loop of the normalizer keeps, in input order, exactly the
entries whose key passes `_is_valid_dict_key`, appending each stringified
kept entry, provided the stringified kept keys are pairwise distinct and
fresh for the accumulator. -/
theorem normalize_entries_filter :
    ∀ (kvs : List (PyKey × PyValue)) (acc : List (Str × Json)),
    ((kvs.filter (fun kv => is_valid_dict_key kv.1)).map (fun kv => pyKeyStr kv.1)).Nodup →
    (∀ p ∈ acc, ∀ kv ∈ kvs.filter (fun kv => is_valid_dict_key kv.1),
      p.1 ≠ pyKeyStr kv.1) →
    normalize_entries kvs acc =
      acc ++ (kvs.filter (fun kv => is_valid_dict_key kv.1)).map
        (fun kv => (pyKeyStr kv.1, normalize_value kv.2)) := by
  intro kvs
  induction kvs with
  | nil => intro acc _ _; simp [normalize_entries]
  | cons kv rest ih =>
    intro acc hnodup hfresh
    obtain ⟨k, v⟩ := kv
    cases hk : is_valid_dict_key k with
    | false =>
      have hstep : normalize_entries ((k, v) :: rest) acc = normalize_entries rest acc := by
        simp only [normalize_entries]
        rw [if_neg (by rw [hk]; exact Bool.false_ne_true)]
      have hfil : ((k, v) :: rest).filter (fun kv => is_valid_dict_key kv.1) =
          rest.filter (fun kv => is_valid_dict_key kv.1) := by
        rw [List.filter_cons_of_neg]
        rw [hk]
        exact Bool.false_ne_true
      rw [hfil] at hnodup hfresh
      rw [hstep, hfil]
      exact ih acc hnodup hfresh
    | true =>
      have hstep : normalize_entries ((k, v) :: rest) acc =
          normalize_entries rest (pyDictInsert acc (pyKeyStr k) (normalize_value v)) := by
        simp only [normalize_entries]
        rw [if_pos hk]
      have hfil : ((k, v) :: rest).filter (fun kv => is_valid_dict_key kv.1) =
          (k, v) :: rest.filter (fun kv => is_valid_dict_key kv.1) :=
        List.filter_cons_of_pos hk
      rw [hfil] at hnodup hfresh
      rw [List.map_cons] at hnodup
      have hnodup2 := hnodup.of_cons
      have hhead := (List.nodup_cons.mp hnodup).1
      rw [hstep,
        pyDictInsert_fresh acc (pyKeyStr k) (normalize_value v)
          (fun p hp => hfresh p hp (k, v) (List.mem_cons_self _ _))]
      rw [ih (acc ++ [(pyKeyStr k, normalize_value v)]) hnodup2 ?_]
      · rw [hfil, List.map_cons]
        simp
      · intro p hp kv2 hm2
        rcases List.mem_append.mp hp with hl | hr
        · exact hfresh p hl kv2 (List.mem_cons_of_mem _ hm2)
        · have hpk : p.1 = pyKeyStr k := by
            rcases List.mem_singleton.mp hr with he2
            rw [he2]
          rw [hpk]
          intro he3
          exact hhead (he3 ▸ List.mem_map_of_mem (fun kv => pyKeyStr kv.1) hm2)

/-- Claim C9 as amended: for every mapping whose KEPT keys (those of host
type str/int/float/bool) have pairwise-distinct stringifications,
normalization returns one entry per kept input key, in input order, with
the key stringified and the value normalized; keys of any other host type
(None, tuples, ...) are dropped wherever they occur.  All mapping keys
are strings after normalization, by construction. -/
theorem C9_normalize_mapping_amended (kvs : List (PyKey × PyValue))
    (hnodup : ((kvs.filter (fun kv => is_valid_dict_key kv.1)).map
      (fun kv => pyKeyStr kv.1)).Nodup) :
    normalize_value (.dict kvs) =
      .obj ((kvs.filter (fun kv => is_valid_dict_key kv.1)).map
        (fun kv => (pyKeyStr kv.1, normalize_value kv.2))) := by
  show Json.obj (normalize_entries kvs []) = _
  rw [normalize_entries_filter kvs [] hnodup (by simp)]
  simp

/-- Witness for C9 at a concrete mixed mapping: `{"a": 1, None: 2,
2: true}` normalizes to the two-entry mapping that keeps the string and
int keys (stringified, in input order) and drops the `None` key in the
middle. -/
theorem C9_normalize_mapping_amended_witness :
    normalize_value (.dict [(PyKey.kStr ['a'], PyValue.int 1),
                            (PyKey.kNone, PyValue.int 2),
                            (PyKey.kInt 2, PyValue.bool true)]) =
      .obj [(['a'], .int 1), (['2'], .bool true)] := by
  have h := C9_normalize_mapping_amended
    [(PyKey.kStr ['a'], PyValue.int 1), (PyKey.kNone, PyValue.int 2),
     (PyKey.kInt 2, PyValue.bool true)]
    (by decide)
  rw [h]
  rfl

/-- A string strips to empty exactly when all its characters are
whitespace. -/
theorem pyStrip_eq_nil_iff {s : Str} : pyStrip s = [] ↔ ∀ c ∈ s, pyWS c = true := by
  unfold pyStrip
  rw [List.reverse_eq_nil_iff, List.dropWhile_eq_nil_iff]
  constructor
  · intro h c hc
    rcases List.mem_append.mp ((List.takeWhile_append_dropWhile (p := pyWS) (l := s)) ▸ hc)
      with hl | hr
    · exact List.mem_takeWhile_imp hl
    · exact h c (List.mem_reverse.mpr hr)
  · intro h c hc
    exact h c ((List.dropWhile_sublist pyWS).mem (List.mem_reverse.mp hc))

/-- Dropping a prefix of whitespace characters does not change the
stripped string. -/
theorem pyStrip_append_ws {a b : Str} (h : ∀ c ∈ a, pyWS c = true) :
    pyStrip (a ++ b) = pyStrip b := by
  unfold pyStrip
  rw [List.dropWhile_append, if_pos]
  rw [List.isEmpty_iff, List.dropWhile_eq_nil_iff]
  exact h

/-- Characters of a piece of a split are characters of the input. -/
theorem splitOnChar_mem {d : Char} : ∀ {s : Str}, ∀ p ∈ splitOnChar d s, ∀ c ∈ p, c ∈ s := by
  intro s
  induction s with
  | nil =>
    intro p hp c hc
    simp only [splitOnChar, List.mem_singleton] at hp
    subst hp
    cases hc
  | cons x rest ih =>
    intro p hp c hc
    by_cases hx : x = d
    · rw [splitOnChar, if_pos hx] at hp
      rcases List.mem_cons.mp hp with h1 | h1
      · subst h1; cases hc
      · exact List.mem_cons_of_mem _ (ih p h1 c hc)
    · rw [splitOnChar, if_neg hx] at hp
      cases hsp : splitOnChar d rest with
      | nil =>
        rw [hsp] at hp
        rcases List.mem_singleton.mp hp with rfl
        rcases List.mem_singleton.mp hc with rfl
        exact List.mem_cons_self _ _
      | cons p0 ps =>
        rw [hsp] at hp
        rcases List.mem_cons.mp hp with h1 | h1
        · subst h1
          rcases List.mem_cons.mp hc with rfl | h2
          · exact List.mem_cons_self _ _
          · exact List.mem_cons_of_mem _ (ih p0 (hsp ▸ List.mem_cons_self _ _) c h2)
        · exact List.mem_cons_of_mem _ (ih p (hsp ▸ List.mem_cons_of_mem _ h1) c hc)

/-- Dropping as many elements as the matched prefix is the same as
`dropWhile`. -/
theorem drop_takeWhile_length (p : Char → Bool) :
    ∀ l : Str, l.drop (l.takeWhile p).length = l.dropWhile p := by
  intro l
  induction l with
  | nil => rfl
  | cons c rest ih =>
    by_cases hc : p c = true
    · rw [List.takeWhile_cons_of_pos hc, List.dropWhile_cons_of_pos hc]
      simpa using ih
    · rw [List.takeWhile_cons_of_neg (by simpa using hc),
        List.dropWhile_cons_of_neg (by simpa using hc)]
      rfl

/-- A line is "bad" for the strict scanner when it is non-blank and has
a tab in its leading whitespace, or a positive leading-space count that
is not a multiple of the indent size — the two conditions of claim C7. -/
def badStrictLine (raw : Str) (size : Nat) : Prop :=
  pyStrip raw ≠ [] ∧
    ('\t' ∈ raw.take (raw.takeWhile (fun c => decide (c = ' ' ∨ c = '\t'))).length ∨
      (0 < (raw.takeWhile (fun c => decide (c = ' '))).length ∧
        (raw.takeWhile (fun c => decide (c = ' '))).length % size ≠ 0))

instance (raw : Str) (size : Nat) : Decidable (badStrictLine raw size) := by
  unfold badStrictLine; infer_instance

/-- The strict scan loop rejects any line list containing a bad line. -/
theorem scanGo_rejects (size : Nat) :
    ∀ (ls : List Str) (i : Nat), (∃ raw ∈ ls, badStrictLine raw size) →
      (scanGo size true ls i).isOk = false := by
  intro ls
  induction ls with
  | nil =>
    intro i h
    rcases h with ⟨raw, hm, -⟩
    cases hm
  | cons raw rest ih =>
    intro i h
    have hstrip : pyStrip (raw.drop
        (raw.takeWhile (fun c => decide (c = ' '))).length) = pyStrip raw := by
      rw [drop_takeWhile_length]
      conv_rhs => rw [← List.takeWhile_append_dropWhile
        (p := fun c => decide (c = ' ')) (l := raw)]
      exact (pyStrip_append_ws (fun c hc => by
        have := List.mem_takeWhile_imp hc
        simp only [decide_eq_true_eq] at this
        subst this
        rfl)).symm
    simp only [scanGo]
    split_ifs with hblank htab hmult
    · -- blank head: the bad line is in the rest
      have hrest : ∃ r ∈ rest, badStrictLine r size := by
        rcases h with ⟨r, hm, hbad⟩
        rcases List.mem_cons.mp hm with rfl | hm2
        · exact absurd (hstrip ▸ hblank) hbad.1
        · exact ⟨r, hm2, hbad⟩
      cases hsc : scanGo size true rest (i + 1) with
      | error e => rfl
      | ok pr =>
        have hcontra := ih (i + 1) hrest
        rw [hsc] at hcontra
        exact Bool.noConfusion hcontra
    · rfl
    · rfl
    · -- head passes the strict checks: the bad line is in the rest
      have hrest : ∃ r ∈ rest, badStrictLine r size := by
        rcases h with ⟨r, hm, hbad⟩
        rcases List.mem_cons.mp hm with rfl | hm2
        · exfalso
          rcases hbad.2 with hb | hb
          · exact htab (by simpa using hb)
          · exact hmult (by simpa using hb)
        · exact ⟨r, hm2, hbad⟩
      cases hsc : scanGo size true rest (i + 1) with
      | error e => rfl
      | ok pr =>
        have hcontra := ih (i + 1) hrest
        rw [hsc] at hcontra
        exact Bool.noConfusion hcontra

/-- Claim C7: in strict mode the line scanner rejects every input
containing a non-blank line with a tab inside its leading whitespace or
a positive leading-space count that is not a multiple of the effective
indent; in particular `a:` followed by a three-space-indented line fails
under indent 2 with an indentation-not-multiple error at line 2. -/
theorem C7_strict_indentation (source : Str) (size : Nat)
    (hbad : ∃ raw ∈ splitOnChar '\n' source, badStrictLine raw size) :
    (to_parsed_lines source size true).isOk = false ∧
    decodeToon (("a:\n   b: 1").data) defaultDecOpts = .error (.indentMult 2) := by
  refine ⟨?_, rfl⟩
  unfold to_parsed_lines
  rw [if_neg]
  · exact scanGo_rejects size (splitOnChar '\n' source) 0 hbad
  · rcases hbad with ⟨raw, hm, hraw, -⟩
    intro hsrc
    refine hraw (pyStrip_eq_nil_iff.mpr ?_)
    intro c hc
    exact pyStrip_eq_nil_iff.mp hsrc c (splitOnChar_mem raw hm c hc)

/-- Witness for C7 at a concrete input: a tab-indented line is rejected
by the strict scanner. -/
theorem C7_strict_indentation_witness :
    (to_parsed_lines (("a:\n\tb: 1").data) 2 true).isOk = false :=
  (C7_strict_indentation (("a:\n\tb: 1").data) 2 (by decide)).1

/-- Every row the tabular loop consumes splits into exactly as many
delimited values as there are declared fields, and the loop only
consumes lines from the front of the cursor. -/
theorem tabLoop_widths :
    ∀ (fuel : Nat) (delim : Char) (fields : List Str) (rowDepth : Nat) (target : Int)
      (cur : Cursor) (objs : List DVal) (sl el : Option Nat)
      (out : List DVal × Cursor × Option Nat × Option Nat),
    tabLoop fuel delim fields rowDepth target cur objs sl el = .ok out →
    out.2.1.rest.length ≤ cur.rest.length ∧
    ∀ pl ∈ cur.rest.take (cur.rest.length - out.2.1.rest.length),
      (parse_delimited_values pl.content delim).length = fields.length := by
  intro fuel
  induction fuel with
  | zero =>
    intro delim fields rowDepth target cur objs sl el out h
    cases h
  | succ fuel ih =>
    intro delim fields rowDepth target cur objs sl el out h
    rw [tabLoop] at h
    dsimp only at h
    by_cases hlt : (objs.length : Int) < target
    · rw [if_pos hlt] at h
      cases hrest : cur.rest with
      | nil =>
        rw [hrest] at h
        cases h
        refine ⟨?_, ?_⟩ <;> simp [hrest]
      | cons line rs =>
        rw [hrest] at h
        dsimp only at h
        by_cases hdep : line.depth = rowDepth
        · rw [if_pos hdep] at h
          cases ha : assert_expected_count
              ((parse_delimited_values line.content delim).length : Int)
              (fields.length : Int) .rowValues with
          | error e => rw [ha] at h; cases h
          | ok u =>
            rw [ha] at h
            dsimp only at h
            cases hm : map_row_values_to_primitives
                (parse_delimited_values line.content delim) with
            | error e => rw [hm] at h; cases h
            | ok prims =>
              rw [hm] at h
              dsimp only at h
              obtain ⟨hle, hw⟩ := ih delim fields rowDepth target
                ⟨line :: cur.done, rs, cur.blanks⟩ _ _ _ out h
              dsimp only at hle hw
              have hwidth : (parse_delimited_values line.content delim).length =
                  fields.length := by
                unfold assert_expected_count at ha
                split_ifs at ha with he2
                exact_mod_cast he2
              constructor
              · simp only [List.length_cons]
                omega
              · simp only [List.length_cons]
                have hstep : rs.length + 1 - out.2.1.rest.length =
                    (rs.length - out.2.1.rest.length) + 1 := by omega
                rw [hstep, List.take_succ_cons]
                intro pl hpl
                rcases List.mem_cons.mp hpl with rfl | hmem
                · exact hwidth
                · exact hw pl hmem
        · rw [if_neg hdep] at h
          cases h
          refine ⟨?_, ?_⟩ <;> simp [hrest]
    · rw [if_neg hlt] at h
      cases h
      refine ⟨?_, ?_⟩ <;> simp

/-- Claim C2: when decoding a tabular array, every consumed row's
delimited value count equals the number of declared fields and a
successful decode returns exactly the declared number N of rows; in
particular decoding `items[2]{id,name}:` with rows `1,Ada` and `2` fails
with a row-width-mismatch error (observed 1 value, expected 2). -/
theorem C2_tabular_row_validation :
    (∀ (hdr : ArrayHeaderInfo) (cur : Cursor) (base : Nat) (o : DecOpts)
       (v : DVal) (cur2 : Cursor),
      decode_tabular_array hdr cur base o = .ok (v, cur2) →
      ∃ objs : List DVal, v = .arr objs ∧ (objs.length : Int) = hdr.length ∧
        ∀ pl ∈ cur.rest.take (cur.rest.length - cur2.rest.length),
          (parse_delimited_values pl.content hdr.delimiter).length =
            (hdr.fields.getD []).length) ∧
    decodeToon (("items[2]\x7bid,name\x7d:\n  1,Ada\n  2").data) defaultDecOpts =
      .error (.countMismatch .rowValues 1 2) := by
  refine ⟨?_, rfl⟩
  intro hdr cur base o v cur2 h
  unfold decode_tabular_array at h
  simp only [] at h
  cases ht : tabLoop (cur.rest.length + 1) hdr.delimiter (hdr.fields.getD [])
      (base + 1) hdr.length cur [] none none with
  | error e => rw [ht] at h; cases h
  | ok out =>
    obtain ⟨objects, curL, sLn, eLn⟩ := out
    rw [ht] at h
    dsimp only at h
    cases ha : assert_expected_count (objects.length : Int) hdr.length .tabularRows with
    | error e => rw [ha] at h; cases h
    | ok u =>
      rw [ha] at h
      dsimp only at h
      cases hb : (match sLn, eLn with
          | some s, some e2 =>
            if o.strict then validate_no_blank_lines_in_range s e2 curL.blanks o.strict
            else .ok ()
          | _, _ => .ok ()) with
      | error e => rw [hb] at h; cases h
      | ok u2 =>
        rw [hb] at h
        dsimp only at h
        cases hc : (if o.strict then validate_no_extra_tabular_rows curL (base + 1)
            else .ok ()) with
        | error e => rw [hc] at h; cases h
        | ok u3 =>
          rw [hc] at h
          dsimp only at h
          cases h
          refine ⟨objects, rfl, ?_, ?_⟩
          · unfold assert_expected_count at ha
            split_ifs at ha with he2
            exact he2
          · exact (tabLoop_widths _ _ _ _ _ _ _ _ _ _ ht).2

/-- Witness hypothesis data for C2: a two-row tabular body. -/
def tabHdrEx : ArrayHeaderInfo := ⟨none, 2, ',', some [("id").data, ("name").data], false⟩

/-- Witness cursor for C2: the rows `1,Ada` and `2,Bob` at depth 1. -/
def tabCurEx : Cursor :=
  ⟨[], [⟨("  1,Ada").data, 2, ("1,Ada").data, 1, 2⟩,
        ⟨("  2,Bob").data, 2, ("2,Bob").data, 1, 3⟩], []⟩

/-- Witness result value for C2. -/
def tabValEx : DVal :=
  .arr [.obj [(("id").data, .int 1), (("name").data, .str (("Ada").data))],
        .obj [(("id").data, .int 2), (("name").data, .str (("Bob").data))]]

/-- Witness result cursor for C2. -/
def tabCurOutEx : Cursor :=
  ⟨[⟨("  2,Bob").data, 2, ("2,Bob").data, 1, 3⟩,
    ⟨("  1,Ada").data, 2, ("1,Ada").data, 1, 2⟩], [], []⟩

/-- Witness for C2 at a concrete well-formed tabular array: the decode
succeeds and the theorem yields the declared row count and row widths. -/
theorem C2_tabular_row_validation_witness :
    ∃ objs : List DVal, tabValEx = .arr objs ∧ (objs.length : Int) = tabHdrEx.length ∧
      ∀ pl ∈ tabCurEx.rest.take (tabCurEx.rest.length - tabCurOutEx.rest.length),
        (parse_delimited_values pl.content tabHdrEx.delimiter).length =
          (tabHdrEx.fields.getD []).length :=
  C2_tabular_row_validation.1 tabHdrEx tabCurEx 0 defaultDecOpts tabValEx tabCurOutEx rfl

/-! Lemmas about the escape codec, for claims C6, C1 and C5. -/

theorem pyReplaceChar_append (c : Char) (rep : Str) (a b : Str) :
    pyReplaceChar c rep (a ++ b) = pyReplaceChar c rep a ++ pyReplaceChar c rep b := by
  induction a with
  | nil => rfl
  | cons x xs ih => simp [pyReplaceChar, ih]

theorem escape_append (a b : Str) :
    escape_string (a ++ b) = escape_string a ++ escape_string b := by
  unfold escape_string
  simp [pyReplaceChar_append]

/-- The sequential replacements of `escape_string` equal the pointwise
escape map. -/
theorem escape_eq_escAll (s : Str) : escape_string s = escAll s := by
  induction s with
  | nil => rfl
  | cons c cs ih =>
    have h1 : escape_string (c :: cs) = escape_string [c] ++ escape_string cs := by
      have := escape_append [c] cs
      simpa using this
    rw [h1, ih, show escAll (c :: cs) = escChar c ++ escAll cs from rfl]
    congr 1
    by_cases h2 : c = bsC
    · subst h2; rfl
    by_cases h3 : c = dqC
    · subst h3; rfl
    by_cases h4 : c = '\n'
    · subst h4; rfl
    by_cases h5 : c = '\r'
    · subst h5; rfl
    by_cases h6 : c = '\t'
    · subst h6; rfl
    simp [escape_string, pyReplaceChar, escChar, h2, h3, h4, h5, h6]

/-- Unescaping inverts the pointwise escape map. -/
theorem unescape_escAll (s : Str) : unescape_string (escAll s) = .ok s := by
  induction s with
  | nil => rfl
  | cons c cs ih =>
    by_cases h2 : c = bsC
    · subst h2
      rw [show unescape_string (escAll (bsC :: cs)) =
        (unescape_string (escAll cs)).map (fun r => bsC :: r) from rfl, ih]
      rfl
    by_cases h3 : c = dqC
    · subst h3
      rw [show unescape_string (escAll (dqC :: cs)) =
        (unescape_string (escAll cs)).map (fun r => dqC :: r) from rfl, ih]
      rfl
    by_cases h4 : c = '\n'
    · subst h4
      rw [show unescape_string (escAll ('\n' :: cs)) =
        (unescape_string (escAll cs)).map (fun r => '\n' :: r) from rfl, ih]
      rfl
    by_cases h5 : c = '\r'
    · subst h5
      rw [show unescape_string (escAll ('\r' :: cs)) =
        (unescape_string (escAll cs)).map (fun r => '\r' :: r) from rfl, ih]
      rfl
    by_cases h6 : c = '\t'
    · subst h6
      rw [show unescape_string (escAll ('\t' :: cs)) =
        (unescape_string (escAll cs)).map (fun r => '\t' :: r) from rfl, ih]
      rfl
    · have hesc : escAll (c :: cs) = c :: escAll cs := by
        simp [escAll, escChar, h2, h3, h4, h5, h6]
      rw [hesc, unescape_string.eq_def]
      dsimp only
      rw [if_neg h2, ih]
      rfl

/-- Escaping a string without special characters leaves it unchanged. -/
theorem escape_id_of_plain (s : Str) (h : ∀ c ∈ s, c ∉ [bsC, dqC, '\n', '\r', '\t']) :
    escape_string s = s := by
  rw [escape_eq_escAll]
  induction s with
  | nil => rfl
  | cons c cs ih =>
    have hc := h c (List.mem_cons_self _ _)
    simp only [List.mem_cons, List.mem_singleton, not_or] at hc
    obtain ⟨h2, h3, h4, h5, h6⟩ := hc
    have : escChar c = [c] := by simp [escChar, h2, h3, h4, h5, by simpa using h6]
    rw [show escAll (c :: cs) = escChar c ++ escAll cs from rfl, this,
      ih (fun x hx => h x (List.mem_cons_of_mem _ hx))]
    rfl

/-- Characters allowed after an escape-initiating backslash. -/
def escSuccessor (c : Char) : Bool :=
  decide (c = 'n') || decide (c = 't') || decide (c = 'r') ||
  decide (c = bsC) || decide (c = dqC)

/-- Number of consecutive backslashes immediately before position `i`. -/
def bsRunBefore (s : Str) (i : Nat) : Nat :=
  (((s.take i).reverse).takeWhile (fun c => decide (c = bsC))).length

/-- Position `i` of `s` holds an escape-initiating backslash (even run of
backslashes before it) whose successor is missing or not a valid escape
code. -/
def badEscapeAt (s : Str) (i : Nat) : Bool :=
  decide (s.get? i = some bsC) && decide (bsRunBefore s i % 2 = 0) &&
    (match s.get? (i+1) with
     | none => true
     | some c => ! escSuccessor c)

theorem takeWhile_len_append (p : Char → Bool) (A B : Str) :
    ((A ++ B).takeWhile p).length =
      if A.all p then A.length + (B.takeWhile p).length
      else (A.takeWhile p).length := by
  induction A with
  | nil => simp
  | cons a as ih =>
    by_cases h : p a
    · by_cases h2 : as.all p
      · simp [List.takeWhile_cons, h, h2, ih]
        omega
      · simp [List.takeWhile_cons, h, h2, ih]
    · simp [List.takeWhile_cons, h]

theorem bsRunBefore_cons (c : Char) (hc : c ≠ bsC) (rest : Str) (i : Nat) :
    bsRunBefore (c :: rest) (i+1) = bsRunBefore rest i := by
  unfold bsRunBefore
  rw [List.take_succ_cons, List.reverse_cons, takeWhile_len_append]
  split_ifs with h
  · have h1 : ((rest.take i).reverse.takeWhile fun c => decide (c = bsC)) =
        (rest.take i).reverse := List.takeWhile_eq_self_iff.mpr (by
      intro a ha
      exact (List.all_eq_true.mp h) a ha)
    rw [h1]
    simp [List.takeWhile_cons, hc]
  · rfl

theorem bsRunBefore_two_shift (n : Char) (rest2 : Str) (j : Nat) :
    bsRunBefore (bsC :: n :: rest2) (j+2) % 2 = bsRunBefore rest2 j % 2 := by
  unfold bsRunBefore
  rw [show j + 2 = (j+1) + 1 from rfl, List.take_succ_cons, List.take_succ_cons,
    List.reverse_cons, List.reverse_cons, List.append_assoc, takeWhile_len_append]
  split_ifs with h
  · by_cases hn : n = bsC
    · subst hn
      have h1 : ((rest2.take j).reverse.takeWhile fun c => decide (c = bsC)) =
          (rest2.take j).reverse := List.takeWhile_eq_self_iff.mpr (by
        intro a ha
        exact (List.all_eq_true.mp h) a ha)
      rw [h1]
      simp [List.takeWhile_cons, Nat.add_mod]
    · have h1 : ((rest2.take j).reverse.takeWhile fun c => decide (c = bsC)) =
          (rest2.take j).reverse := List.takeWhile_eq_self_iff.mpr (by
        intro a ha
        exact (List.all_eq_true.mp h) a ha)
      rw [h1]
      simp [List.takeWhile_cons, hn]
  · rfl

theorem badEscapeAt_nil (i : Nat) : badEscapeAt [] i = false := by
  simp [badEscapeAt, List.get?]

theorem badEscapeAt_cons_shift (c : Char) (hc : c ≠ bsC) (rest : Str) (i : Nat) :
    badEscapeAt (c :: rest) (i+1) = badEscapeAt rest i := by
  unfold badEscapeAt
  rw [bsRunBefore_cons c hc]
  rfl

theorem badEscapeAt_cons_zero (c : Char) (hc : c ≠ bsC) (rest : Str) :
    badEscapeAt (c :: rest) 0 = false := by
  simp [badEscapeAt, hc]

theorem badEscapeAt_two_shift (n : Char) (rest2 : Str) (j : Nat) :
    badEscapeAt (bsC :: n :: rest2) (j+2) = badEscapeAt rest2 j := by
  unfold badEscapeAt
  have h := bsRunBefore_two_shift n rest2 j
  have h2 : decide (bsRunBefore (bsC :: n :: rest2) (j+2) % 2 = 0) =
      decide (bsRunBefore rest2 j % 2 = 0) := by
    rw [h]
  rw [h2]
  rfl

theorem badEscapeAt_pair_zero (n : Char) (rest2 : Str) (hn : escSuccessor n = true) :
    badEscapeAt (bsC :: n :: rest2) 0 = false := by
  simp [badEscapeAt, hn]

theorem badEscapeAt_pair_one (n : Char) (rest2 : Str) :
    badEscapeAt (bsC :: n :: rest2) 1 = false := by
  by_cases hn : n = bsC
  · subst hn
    simp [badEscapeAt, bsRunBefore, List.takeWhile_cons]
  · simp [badEscapeAt, hn]

/-- Unescaping fails exactly when some position holds an escape-initiating
backslash whose successor is missing or invalid. -/
theorem unescape_error_iff (s : Str) :
    (unescape_string s).isOk = false ↔ ∃ i, badEscapeAt s i = true := by
  induction s using unescape_string.induct with
  | case1 =>
    simp [unescape_string, Except.isOk, Except.toBool, badEscapeAt_nil]
  | case2 =>
    constructor
    · intro _
      exact ⟨0, by decide⟩
    · intro _
      rfl
  | case3 rest2 ih =>
    rw [show unescape_string (bsC :: 'n' :: rest2) =
      (unescape_string rest2).map (fun r => '\n' :: r) from rfl]
    rw [show ((unescape_string rest2).map (fun r => '\n' :: r)).isOk =
      (unescape_string rest2).isOk from by cases unescape_string rest2 <;> rfl]
    rw [ih]
    constructor
    · rintro ⟨j, hj⟩
      exact ⟨j + 2, by rw [badEscapeAt_two_shift 'n' rest2 j]; exact hj⟩
    · rintro ⟨i, hi⟩
      match i, hi with
      | 0, hi => rw [badEscapeAt_pair_zero 'n' rest2 (by decide)] at hi; exact absurd hi (by simp)
      | 1, hi => rw [badEscapeAt_pair_one 'n' rest2] at hi; exact absurd hi (by simp)
      | j + 2, hi => exact ⟨j, by rw [← badEscapeAt_two_shift 'n' rest2 j]; exact hi⟩
  | case4 rest2 h1 ih =>
    rw [show unescape_string (bsC :: 't' :: rest2) =
      (unescape_string rest2).map (fun r => '\t' :: r) from rfl]
    rw [show ((unescape_string rest2).map (fun r => '\t' :: r)).isOk =
      (unescape_string rest2).isOk from by cases unescape_string rest2 <;> rfl]
    rw [ih]
    constructor
    · rintro ⟨j, hj⟩
      exact ⟨j + 2, by rw [badEscapeAt_two_shift 't' rest2 j]; exact hj⟩
    · rintro ⟨i, hi⟩
      match i, hi with
      | 0, hi => rw [badEscapeAt_pair_zero 't' rest2 (by decide)] at hi; exact absurd hi (by simp)
      | 1, hi => rw [badEscapeAt_pair_one 't' rest2] at hi; exact absurd hi (by simp)
      | j + 2, hi => exact ⟨j, by rw [← badEscapeAt_two_shift 't' rest2 j]; exact hi⟩
  | case5 rest2 h1 h2 ih =>
    rw [show unescape_string (bsC :: 'r' :: rest2) =
      (unescape_string rest2).map (fun r => '\r' :: r) from rfl]
    rw [show ((unescape_string rest2).map (fun r => '\r' :: r)).isOk =
      (unescape_string rest2).isOk from by cases unescape_string rest2 <;> rfl]
    rw [ih]
    constructor
    · rintro ⟨j, hj⟩
      exact ⟨j + 2, by rw [badEscapeAt_two_shift 'r' rest2 j]; exact hj⟩
    · rintro ⟨i, hi⟩
      match i, hi with
      | 0, hi => rw [badEscapeAt_pair_zero 'r' rest2 (by decide)] at hi; exact absurd hi (by simp)
      | 1, hi => rw [badEscapeAt_pair_one 'r' rest2] at hi; exact absurd hi (by simp)
      | j + 2, hi => exact ⟨j, by rw [← badEscapeAt_two_shift 'r' rest2 j]; exact hi⟩
  | case6 rest2 h1 h2 h3 ih =>
    rw [show unescape_string (bsC :: bsC :: rest2) =
      (unescape_string rest2).map (fun r => bsC :: r) from rfl]
    rw [show ((unescape_string rest2).map (fun r => bsC :: r)).isOk =
      (unescape_string rest2).isOk from by cases unescape_string rest2 <;> rfl]
    rw [ih]
    constructor
    · rintro ⟨j, hj⟩
      exact ⟨j + 2, by rw [badEscapeAt_two_shift bsC rest2 j]; exact hj⟩
    · rintro ⟨i, hi⟩
      match i, hi with
      | 0, hi => rw [badEscapeAt_pair_zero bsC rest2 (by decide)] at hi; exact absurd hi (by simp)
      | 1, hi => rw [badEscapeAt_pair_one bsC rest2] at hi; exact absurd hi (by simp)
      | j + 2, hi => exact ⟨j, by rw [← badEscapeAt_two_shift bsC rest2 j]; exact hi⟩
  | case7 rest2 h1 h2 h3 h4 ih =>
    rw [show unescape_string (bsC :: dqC :: rest2) =
      (unescape_string rest2).map (fun r => dqC :: r) from rfl]
    rw [show ((unescape_string rest2).map (fun r => dqC :: r)).isOk =
      (unescape_string rest2).isOk from by cases unescape_string rest2 <;> rfl]
    rw [ih]
    constructor
    · rintro ⟨j, hj⟩
      exact ⟨j + 2, by rw [badEscapeAt_two_shift dqC rest2 j]; exact hj⟩
    · rintro ⟨i, hi⟩
      match i, hi with
      | 0, hi => rw [badEscapeAt_pair_zero dqC rest2 (by decide)] at hi; exact absurd hi (by simp)
      | 1, hi => rw [badEscapeAt_pair_one dqC rest2] at hi; exact absurd hi (by simp)
      | j + 2, hi => exact ⟨j, by rw [← badEscapeAt_two_shift dqC rest2 j]; exact hi⟩
  | case8 n rest2 hn1 hn2 hn3 hn4 hn5 =>
    constructor
    · intro _
      refine ⟨0, ?_⟩
      have hsucc : escSuccessor n = false := by
        simp [escSuccessor, hn1, hn2, hn3, hn4, hn5]
      simp [badEscapeAt, bsRunBefore, hsucc]
    · intro _
      rw [show unescape_string (bsC :: n :: rest2) = .error .invalidEscape from by
        rw [unescape_string.eq_def]
        dsimp only
        rw [if_pos rfl, if_neg hn1, if_neg hn2, if_neg hn3, if_neg hn4, if_neg hn5]]
      rfl
  | case9 c rest hbs ih =>
    rw [show unescape_string (c :: rest) =
      (unescape_string rest).map (fun r => c :: r) from by
        rw [unescape_string.eq_def]
        dsimp only
        rw [if_neg hbs]]
    rw [show ((unescape_string rest).map (fun r => c :: r)).isOk =
      (unescape_string rest).isOk from by cases unescape_string rest <;> rfl]
    rw [ih]
    constructor
    · rintro ⟨j, hj⟩
      exact ⟨j + 1, by rw [badEscapeAt_cons_shift c hbs rest j]; exact hj⟩
    · rintro ⟨i, hi⟩
      match i, hi with
      | 0, hi => rw [badEscapeAt_cons_zero c hbs rest] at hi; exact absurd hi (by simp)
      | j + 1, hi => exact ⟨j, by rw [← badEscapeAt_cons_shift c hbs rest j]; exact hi⟩

/-- Counterexample to claim C6's error characterization: in the input
backslash-backslash-x, the backslash at index 1 is followed by the
character x, which lies outside the escape set, yet unescaping succeeds
(that backslash is itself escaped by the one before it, so it does not
initiate an escape). -/
theorem C6_double_backslash_cex :
    unescape_string [bsC, bsC, 'x'] = .ok [bsC, 'x'] ∧
    List.get? [bsC, bsC, 'x'] 1 = some bsC ∧
    'x' ∉ (['n', 't', 'r'] ++ [bsC, dqC]) ∧
    List.get? [bsC, bsC, 'x'] 2 = some 'x' := by
  refine ⟨rfl, rfl, by decide, rfl⟩

/-- Claim C6, amended: unescaping the escaped form of any string returns
the string, and escaping passes plain strings (no backslash, quote,
newline, carriage return or tab) through unmodified; unescaping fails
exactly when some ESCAPE-INITIATING backslash — one preceded by an even
number of consecutive backslashes — is followed by a character outside
the set backslash-quote-n-t-r, or stands at the end of the input (the
claim's original version, quantifying over every backslash, is refuted
by the double-backslash counterexample). -/
theorem C6_escape_unescape_amended (s t u : Str)
    (hplain : ∀ c ∈ s, c ∉ [bsC, dqC, '\n', '\r', '\t']) :
    unescape_string (escape_string u) = .ok u ∧
    escape_string s = s ∧
    ((unescape_string t).isOk = false ↔ ∃ i, badEscapeAt t i = true) := by
  refine ⟨?_, escape_id_of_plain s hplain, unescape_error_iff t⟩
  rw [escape_eq_escAll]
  exact unescape_escAll u

/-- Concrete instance of the amended C6 theorem. -/
theorem C6_escape_unescape_amended_witness :
    unescape_string (escape_string [bsC, 'x']) = .ok [bsC, 'x'] ∧
    escape_string ['a'] = ['a'] ∧
    ((unescape_string [bsC, 'x', 'q']).isOk = false ↔
      ∃ i, badEscapeAt [bsC, 'x', 'q'] i = true) :=
  C6_escape_unescape_amended ['a'] [bsC, 'x', 'q'] [bsC, 'x'] (by decide)

/-- Bracket body of an array header after removing the optional leading
`#` marker and the optional trailing tab/pipe delimiter override, as
described by claim C8. -/
def bracketCore (seg : Str) : Str :=
  let content := if seg.head? = some '#' then seg.drop 1 else seg
  let hasTab := content.getLast? = some '\t'
  let hasPipe := content.getLast? = some '|'
  if hasTab ∨ hasPipe then content.dropLast else content

/-- Counterexample to claim C8: the header `a[-1]:` parses successfully
into an ArrayHeader with declared length `-1`, which is negative — the
host int parser accepts a sign, so malformed-body rejection does not
imply N ≥ 0. -/
theorem C8_negative_length_cex :
    parse_array_header_line (("a[-1]:").data) ',' =
      .ok (some (⟨some ['a'], -1, ',', none, false⟩, none)) ∧
    ((-1 : Int) < 0) :=
  ⟨rfl, by decide⟩

/-- Claim C8 as amended: after removing the optional `#` and the optional
trailing tab/pipe, the remaining bracket body must parse via the host int
parser (optional sign, surrounding whitespace, underscores between
digits); the declared length is exactly that integer — possibly negative —
and bodies the int parser rejects are errors. -/
theorem C8_bracket_length_amended (seg : Str) (d : Char) :
    (∀ r, parse_bracket_segment seg d = .ok r → pyIntParse (bracketCore seg) = some r.1) ∧
    (pyIntParse (bracketCore seg) = none →
      parse_bracket_segment seg d = .error .invalidLength) := by
  unfold parse_bracket_segment bracketCore
  constructor
  · intro r hr
    simp only [] at hr ⊢
    split at hr
    next n hn =>
      cases hr
      simpa using hn
    next => cases hr
  · intro hc
    simp only [hc]

/-- Witness for C8 at concrete inputs: `#3|` strips to body `3` which the
int parser accepts as 3; `x` is rejected and the segment errors. -/
theorem C8_bracket_length_amended_witness :
    parse_bracket_segment (("#3|").data) ',' = .ok (3, '|', true) ∧
    pyIntParse (bracketCore (("#3|").data)) = some 3 ∧
    parse_bracket_segment (['x']) ',' = .error .invalidLength :=
  ⟨rfl, (C8_bracket_length_amended (("#3|").data) ',').1 (3, '|', true) rfl,
    (C8_bracket_length_amended ['x'] ',').2 rfl⟩

/-! Output hygiene (claim C5): the encoder emits no line with a trailing
space and no final newline.  `okPairs` rules out a space immediately
before a newline; `SegOk` additionally rules out a leading newline, so
that segment concatenation preserves it; `ContentOk` is the full
invariant carried for each pushed line. -/

/-- No space character immediately followed by a newline. -/
def okPairs : Str → Bool
  | [] => true
  | c :: rest =>
    !(decide (c = ' ') && decide (rest.head? = some '\n')) && okPairs rest

/-- Hygienic segment: no space-newline pair inside, no leading newline. -/
def SegOk (t : Str) : Prop := okPairs t = true ∧ t.head? ≠ some '\n'

/-- Hygienic line content: nonempty hygienic segment whose last character
is neither a space nor a newline. -/
def ContentOk (t : Str) : Prop :=
  t ≠ [] ∧ SegOk t ∧ t.getLast? ≠ some ' ' ∧ t.getLast? ≠ some '\n'

theorem getLast?_append_ne (a b : Str) (hb : b ≠ []) :
    (a ++ b).getLast? = b.getLast? := List.getLast?_append_of_ne_nil a hb

theorem getLast?_cons_ne (c : Char) (t : Str) (ht : t ≠ []) :
    (c :: t).getLast? = t.getLast? := by
  rw [show c :: t = [c] ++ t from rfl]
  exact getLast?_append_ne [c] t ht

theorem okPairs_append (a b : Str) (ha : okPairs a = true) (hb : okPairs b = true)
    (hab : a.getLast? ≠ some ' ' ∨ b.head? ≠ some '\n') : okPairs (a ++ b) = true := by
  induction a with
  | nil => simpa using hb
  | cons x a2 ih =>
    rw [List.cons_append]
    rw [show okPairs (x :: (a2 ++ b)) =
      (!(decide (x = ' ') && decide ((a2 ++ b).head? = some '\n')) &&
        okPairs (a2 ++ b)) from rfl]
    rw [show okPairs (x :: a2) =
      (!(decide (x = ' ') && decide (a2.head? = some '\n')) && okPairs a2) from rfl] at ha
    rw [Bool.and_eq_true] at ha
    cases a2 with
    | nil =>
      have hb2 : (([] : Str) ++ b).head? = b.head? := rfl
      rw [hb2]
      have hx : ¬(x = ' ') ∨ b.head? ≠ some '\n' := by
        rcases hab with h | h
        · exact Or.inl (by simpa using h)
        · exact Or.inr h
      rcases hx with h | h <;>
        simp [h, hb]
    | cons y a3 =>
      have htail : okPairs ((y :: a3) ++ b) = true := by
        apply ih ha.2
        rcases hab with h | h
        · exact Or.inl (by
            intro hc
            apply h
            rw [getLast?_cons_ne x (y :: a3) (by simp)]
            exact hc)
        · exact Or.inr h
      rw [htail, Bool.and_true]
      have hhd : ((y :: a3) ++ b).head? = some y := rfl
      rw [hhd]
      have := ha.1
      simpa using this

theorem okPairs_of_no_nl (t : Str) (h : '\n' ∉ t) : okPairs t = true := by
  induction t with
  | nil => rfl
  | cons c rest ih =>
    rw [show okPairs (c :: rest) =
      (!(decide (c = ' ') && decide (rest.head? = some '\n')) && okPairs rest) from rfl]
    have h1 : rest.head? ≠ some '\n' := by
      intro hc
      exact h (List.mem_cons_of_mem _ (List.mem_of_mem_head? hc))
    have h2 : okPairs rest = true := ih (fun hc => h (List.mem_cons_of_mem _ hc))
    simp [h1, h2]

theorem okPairs_of_no_sp (t : Str) (h : ' ' ∉ t) : okPairs t = true := by
  induction t with
  | nil => rfl
  | cons c rest ih =>
    rw [show okPairs (c :: rest) =
      (!(decide (c = ' ') && decide (rest.head? = some '\n')) && okPairs rest) from rfl]
    have h1 : c ≠ ' ' := fun hc => h (hc ▸ List.mem_cons_self _ _)
    have h2 : okPairs rest = true := ih (fun hc => h (List.mem_cons_of_mem _ hc))
    simp [h1, h2]

theorem SegOk_append (a b : Str) (ha : SegOk a) (hb : SegOk b) : SegOk (a ++ b) := by
  obtain ⟨ha1, ha2⟩ := ha
  obtain ⟨hb1, hb2⟩ := hb
  refine ⟨okPairs_append a b ha1 hb1 (Or.inr hb2), ?_⟩
  cases a with
  | nil => simpa using hb2
  | cons x a2 =>
    intro hc
    rw [show ((x :: a2) ++ b).head? = some x from rfl] at hc
    exact ha2 (by rw [show (x :: a2).head? = some x from rfl]; exact hc)

theorem SegOk_of_no_nl (t : Str) (h : '\n' ∉ t) : SegOk t :=
  ⟨okPairs_of_no_nl t h, fun hc => h (List.mem_of_mem_head? hc)⟩

theorem SegOk_of_no_sp (t : Str) (h : ' ' ∉ t) (hh : t.head? ≠ some '\n') : SegOk t :=
  ⟨okPairs_of_no_sp t h, hh⟩

/-- Hygienic token: nonempty, newline-free, no trailing space. -/
def TokOk (t : Str) : Prop := t ≠ [] ∧ '\n' ∉ t ∧ t.getLast? ≠ some ' '

theorem SegOk_of_TokOk (t : Str) (h : TokOk t) : SegOk t :=
  SegOk_of_no_nl t h.2.1

theorem ContentOk_of_TokOk (t : Str) (h : TokOk t) : ContentOk t := by
  obtain ⟨h1, h2, h3⟩ := h
  exact ⟨h1, SegOk_of_no_nl t h2, h3,
    fun hc => h2 (List.mem_of_mem_getLast? hc)⟩

theorem asciiDigit_ne_sp (c : Char) (h : asciiDigit c = true) : c ≠ ' ' := by
  intro hc
  rw [hc] at h
  exact absurd h (by decide)

theorem asciiDigit_ne_nl (c : Char) (h : asciiDigit c = true) : c ≠ '\n' := by
  intro hc
  rw [hc] at h
  exact absurd h (by decide)

theorem digitChar_digit (d : Nat) (h : d < 10) : asciiDigit (digitChar d) = true := by
  revert h
  revert d
  decide

theorem natReprAux_digits (fuel n : Nat) :
    ∀ c ∈ natReprAux fuel n, asciiDigit c = true := by
  induction fuel generalizing n with
  | zero => intro c hc; simp [natReprAux] at hc
  | succ fuel ih =>
    intro c hc
    rw [natReprAux] at hc
    split at hc
    next h =>
      simp at hc
      exact hc ▸ digitChar_digit n h
    next h =>
      rw [List.mem_append] at hc
      rcases hc with hc | hc
      · exact ih (n / 10) c hc
      · simp at hc
        exact hc ▸ digitChar_digit (n % 10) (Nat.mod_lt n (by omega))

theorem natReprAux_ne_nil (fuel n : Nat) : natReprAux (fuel + 1) n ≠ [] := by
  rw [natReprAux]
  split <;> simp

theorem intRepr_tok (n : Int) : TokOk (intRepr n) := by
  have hdig := natReprAux_digits (n.natAbs + 1) n.natAbs
  have hne := natReprAux_ne_nil n.natAbs n.natAbs
  unfold intRepr natRepr
  have hlast : (natReprAux (n.natAbs + 1) n.natAbs).getLast? ≠ some ' ' := by
    intro hc
    exact asciiDigit_ne_sp ' ' (hdig ' ' (List.mem_of_mem_getLast? hc)) rfl
  have hnl : '\n' ∉ natReprAux (n.natAbs + 1) n.natAbs := by
    intro hc
    exact asciiDigit_ne_nl '\n' (hdig '\n' hc) rfl
  split
  · refine ⟨by simp, ?_, ?_⟩
    · intro hc
      rcases List.mem_cons.mp hc with hc | hc
      · exact absurd hc.symm (by decide)
      · exact hnl hc
    · rw [getLast?_cons_ne '-' _ hne]
      exact hlast
  · exact ⟨hne, hnl, hlast⟩

theorem escAll_no_nl (s : Str) : '\n' ∉ escAll s := by
  induction s with
  | nil => simp [escAll]
  | cons c cs ih =>
    rw [show escAll (c :: cs) = escChar c ++ escAll cs from rfl]
    rw [List.mem_append]
    rintro (hc | hc)
    · by_cases h2 : c = bsC
      · subst h2; exact absurd hc (by decide)
      by_cases h3 : c = dqC
      · subst h3; exact absurd hc (by decide)
      by_cases h4 : c = '\n'
      · subst h4; exact absurd hc (by decide)
      by_cases h5 : c = '\r'
      · subst h5; exact absurd hc (by decide)
      by_cases h6 : c = '\t'
      · subst h6; exact absurd hc (by decide)
      · rw [show escChar c = [c] from by
          simp [escChar, h2, h3, h4, h5, h6]] at hc
        simp at hc
        exact h4 hc.symm
    · exact ih hc

theorem head?_dropWhile_not (p : Char → Bool) (l : Str) (c : Char)
    (h : (l.dropWhile p).head? = some c) : p c = false := by
  induction l with
  | nil => simp [List.dropWhile] at h
  | cons x xs ih =>
    rw [List.dropWhile_cons] at h
    split at h
    · exact ih h
    next hx =>
      rw [show (x :: xs).head? = some x from rfl] at h
      cases h
      simpa using hx

theorem pyStrip_getLast_not_ws (s : Str) (c : Char)
    (h : (pyStrip s).getLast? = some c) : pyWS c = false := by
  unfold pyStrip at h
  rw [List.getLast?_reverse] at h
  exact head?_dropWhile_not pyWS _ c h

theorem encode_string_literal_tok (s : Str) (d : Char) :
    TokOk (encode_string_literal s d) := by
  unfold encode_string_literal
  split
  next hsafe =>
    unfold is_safe_unquoted at hsafe
    split_ifs at hsafe with h1 h2 h3 h4 h5 h6 h7 h8 h9
    push_neg at h2
    refine ⟨h1, ?_, ?_⟩
    · intro hc
      exact absurd (by
        rw [List.any_eq_true]
        exact ⟨'\n', hc, by decide⟩) h7
    · intro hc
      rw [h2] at hc
      have := pyStrip_getLast_not_ws s ' ' hc
      exact absurd this (by decide)
  next =>
    refine ⟨by simp, ?_, ?_⟩
    · intro hc
      rcases List.mem_cons.mp hc with hc | hc
      · exact absurd hc.symm (by decide)
      simp only [List.append_eq, List.mem_append] at hc
      rcases hc with hc | hc
      · rw [escape_eq_escAll] at hc
        exact escAll_no_nl s hc
      · simp at hc
        exact absurd hc.symm (by decide)
    · rw [show dqC :: escape_string s ++ [dqC] =
        (dqC :: escape_string s) ++ [dqC] from rfl, List.getLast?_concat]
      decide

theorem encode_primitive_tok (v : Json) (d : Char) (hv : is_json_primitive v = true) :
    TokOk (encode_primitive v d) := by
  cases v with
  | null => exact show TokOk (("null").data) from ⟨by decide, by decide, by decide⟩
  | bool b =>
    cases b
    · exact show TokOk (("false").data) from ⟨by decide, by decide, by decide⟩
    · exact show TokOk (("true").data) from ⟨by decide, by decide, by decide⟩
  | int n => exact intRepr_tok n
  | float f =>
    have hok := f.fRepr_ok
    unfold floatReprOk at hok
    rw [Bool.and_eq_true] at hok
    have hall := List.all_eq_true.mp hok.2
    refine ⟨by simpa using hok.1, ?_, ?_⟩
    · intro hc
      have := hall '\n' hc
      exact absurd this (by decide)
    · intro hc
      have := hall ' ' (List.mem_of_mem_getLast? hc)
      exact absurd this (by decide)
  | str s => exact encode_string_literal_tok s d
  | arr xs => simp [is_json_primitive] at hv
  | obj kvs => simp [is_json_primitive] at hv

theorem head?_append_ne (a b : Str) (ha : a ≠ []) : (a ++ b).head? = a.head? := by
  cases a with
  | nil => exact absurd rfl ha
  | cons x a2 => rfl

theorem quoted_lit_tok (s : Str) : TokOk (dqC :: escape_string s ++ [dqC]) := by
  refine ⟨by simp, ?_, ?_⟩
  · intro hc
    rcases List.mem_cons.mp hc with hc | hc
    · exact absurd hc.symm (by decide)
    simp only [List.append_eq, List.mem_append] at hc
    rcases hc with hc | hc
    · rw [escape_eq_escAll] at hc
      exact escAll_no_nl s hc
    · simp at hc
      exact absurd hc.symm (by decide)
  · rw [show dqC :: escape_string s ++ [dqC] =
      (dqC :: escape_string s) ++ [dqC] from rfl, List.getLast?_concat]
    decide

theorem keyCore_no_sp (k : Str) (h : keyCore k = true) :
    ' ' ∉ k ∧ k.head? ≠ some '\n' ∧ k ≠ [] := by
  cases k with
  | nil => exact absurd h (by decide)
  | cons c rest =>
    rw [show keyCore (c :: rest) =
      (decide (c.isAlpha ∨ c = '_') &&
        rest.all (fun x => decide (x.isAlphanum ∨ x = '_' ∨ x = '.'))) from rfl,
      Bool.and_eq_true] at h
    have hc := of_decide_eq_true h.1
    have hrest := List.all_eq_true.mp h.2
    have hcne : c ≠ ' ' := by
      intro he
      rw [he] at hc
      exact absurd hc (by decide)
    have hcnl : c ≠ '\n' := by
      intro he
      rw [he] at hc
      exact absurd hc (by decide)
    refine ⟨?_, ?_, by simp⟩
    · intro hm
      rcases List.mem_cons.mp hm with hm | hm
      · exact hcne hm.symm
      · have := of_decide_eq_true (hrest ' ' hm)
        exact absurd this (by decide)
    · intro hh
      rw [show (c :: rest).head? = some c from rfl] at hh
      cases hh
      exact hcnl rfl

theorem encode_key_props (k : Str) :
    encode_key k ≠ [] ∧ SegOk (encode_key k) ∧ (encode_key k).getLast? ≠ some ' ' := by
  unfold encode_key
  split
  next hq =>
    unfold is_valid_unquoted_key pyFullMatch at hq
    rw [Bool.or_eq_true] at hq
    rcases hq with hq | hq
    · obtain ⟨hsp, hhd, hne⟩ := keyCore_no_sp k hq
      exact ⟨hne, SegOk_of_no_sp k hsp hhd,
        fun hc => hsp (List.mem_of_mem_getLast? hc)⟩
    · rw [Bool.and_eq_true] at hq
      have hlast := of_decide_eq_true hq.1
      have hcore := hq.2
      obtain ⟨hsp2, hhd2, hne2⟩ := keyCore_no_sp k.dropLast hcore
      have hne : k ≠ [] := by
        intro he
        rw [he] at hlast
        exact absurd hlast (by decide)
      have hsplit : k.dropLast ++ [k.getLast hne] = k := List.dropLast_append_getLast hne
      have hgl : k.getLast hne = '\n' := by
        have := List.getLast?_eq_getLast k hne
        rw [hlast] at this
        exact (Option.some_injective _ this).symm
      have hsp : ' ' ∉ k := by
        intro hm
        rw [← hsplit, List.mem_append] at hm
        rcases hm with hm | hm
        · exact hsp2 hm
        · simp [hgl] at hm
      refine ⟨hne, ⟨okPairs_of_no_sp k hsp, ?_⟩, fun hc => hsp (List.mem_of_mem_getLast? hc)⟩
      intro hh
      rw [← hsplit, head?_append_ne _ _ hne2] at hh
      exact hhd2 hh
  next =>
    obtain ⟨h1, h2, h3⟩ := quoted_lit_tok k
    exact ⟨h1, SegOk_of_no_nl _ h2, h3⟩

theorem SegOk_cons_ne (c : Char) (t : Str) (hc1 : c ≠ ' ') (hc2 : c ≠ '\n')
    (ht : okPairs t = true) : SegOk (c :: t) := by
  constructor
  · rw [show okPairs (c :: t) =
      (!(decide (c = ' ') && decide (t.head? = some '\n')) && okPairs t) from rfl]
    simp [hc1, ht]
  · intro hh
    rw [show (c :: t).head? = some c from rfl] at hh
    cases hh
    exact hc2 rfl

theorem SegOk_sp_cons (t : Str) (h : SegOk t) : SegOk (' ' :: t) := by
  constructor
  · rw [show okPairs (' ' :: t) =
      (!(decide ((' ' : Char) = ' ') && decide (t.head? = some '\n')) && okPairs t) from rfl]
    simp [h.1, h.2]
  · intro hh
    rw [show (' ' :: t).head? = some ' ' from rfl] at hh
    exact absurd hh (by decide)

theorem joinChar_segOk (d : Char) (ls : List Str) (h1 : d ≠ ' ') (h2 : d ≠ '\n')
    (h : ∀ l ∈ ls, SegOk l) : SegOk (joinChar d ls) := by
  induction ls with
  | nil => exact ⟨rfl, by simp [joinChar]⟩
  | cons l ls ih =>
    cases ls with
    | nil => exact h l (List.mem_singleton_self l)
    | cons l2 rest =>
      rw [show joinChar d (l :: l2 :: rest) = l ++ d :: joinChar d (l2 :: rest) from rfl]
      refine SegOk_append _ _ (h l (List.mem_cons_self _ _)) ?_
      have hj := ih (fun x hx => h x (List.mem_cons_of_mem _ hx))
      exact SegOk_cons_ne d _ h1 h2 hj.1

theorem joinChar_last (d : Char) (ls : List Str) (hls : ls ≠ [])
    (h : ∀ l ∈ ls, l ≠ [] ∧ l.getLast? ≠ some ' ' ∧ l.getLast? ≠ some '\n') :
    joinChar d ls ≠ [] ∧ (joinChar d ls).getLast? ≠ some ' ' ∧
      (joinChar d ls).getLast? ≠ some '\n' := by
  induction ls with
  | nil => exact absurd rfl hls
  | cons l ls ih =>
    cases ls with
    | nil => exact h l (List.mem_singleton_self l)
    | cons l2 rest =>
      have hj := ih (by simp) (fun x hx => h x (List.mem_cons_of_mem _ hx))
      rw [show joinChar d (l :: l2 :: rest) = l ++ d :: joinChar d (l2 :: rest) from rfl]
      have hne : (d :: joinChar d (l2 :: rest)) ≠ [] := by simp
      rw [getLast?_append_ne _ _ hne, getLast?_cons_ne d _ hj.1]
      exact ⟨by simp, hj.2.1, hj.2.2⟩

theorem joinChar_no_nl (d : Char) (ls : List Str) (hd : d ≠ '\n')
    (h : ∀ l ∈ ls, '\n' ∉ l) : '\n' ∉ joinChar d ls := by
  induction ls with
  | nil => simp [joinChar]
  | cons l ls ih =>
    cases ls with
    | nil => exact h l (List.mem_singleton_self l)
    | cons l2 rest =>
      rw [show joinChar d (l :: l2 :: rest) = l ++ d :: joinChar d (l2 :: rest) from rfl]
      intro hm
      rw [List.mem_append, List.mem_cons] at hm
      rcases hm with hm | hm | hm
      · exact h l (List.mem_cons_self _ _) hm
      · exact hd hm.symm
      · exact ih (fun x hx => h x (List.mem_cons_of_mem _ hx)) hm

theorem encode_and_join_ok (values : List Json) (d : Char) (hne : values ≠ [])
    (hall : values.all is_json_primitive = true) (h1 : d ≠ ' ') (h2 : d ≠ '\n') :
    ContentOk (encode_and_join_primitives values d) := by
  unfold encode_and_join_primitives
  have htok : ∀ l ∈ values.map (fun v => encode_primitive v d), TokOk l := by
    intro l hl
    rw [List.mem_map] at hl
    obtain ⟨v, hv, rfl⟩ := hl
    exact encode_primitive_tok v d (List.all_eq_true.mp hall v hv)
  have hlsne : values.map (fun v => encode_primitive v d) ≠ [] := by
    simp [hne]
  have hlast := joinChar_last d _ hlsne (fun l hl => by
    obtain ⟨t1, t2, t3⟩ := htok l hl
    exact ⟨t1, t3, fun hc => t2 (List.mem_of_mem_getLast? hc)⟩)
  have hseg := joinChar_segOk d _ h1 h2 (fun l hl => SegOk_of_TokOk l (htok l hl))
  exact ⟨hlast.1, hseg, hlast.2.1, hlast.2.2⟩

theorem ContentOk_concat_colon (A B C : Str) (hA : SegOk A) (hB : SegOk B)
    (hC : SegOk C) : ContentOk (A ++ B ++ C ++ [':']) := by
  have hSeg : SegOk (A ++ B ++ C ++ [':']) :=
    SegOk_append _ [':'] (SegOk_append _ _ (SegOk_append _ _ hA hB) hC)
      ⟨by decide, by decide⟩
  refine ⟨by simp, hSeg, ?_, ?_⟩
  · rw [show A ++ B ++ C ++ [':'] = (A ++ B ++ C) ++ [':'] from rfl,
      List.getLast?_concat]
    decide
  · rw [show A ++ B ++ C ++ [':'] = (A ++ B ++ C) ++ [':'] from rfl,
      List.getLast?_concat]
    decide

theorem format_header_ok (len : Nat) (key : Option Str) (fields : Option (List Str))
    (d : Char) (marker : Bool) (h1 : d ≠ ' ') (h2 : d ≠ '\n') :
    ContentOk (format_header len key fields d marker) := by
  unfold format_header
  apply ContentOk_concat_colon
  · cases key with
    | none => exact ⟨by decide, by decide⟩
    | some k =>
      show SegOk (if k = [] then [] else encode_key k)
      split
      · exact ⟨by decide, by decide⟩
      · exact (encode_key_props k).2.1
  · have hBsp : ' ' ∉ ('[' :: ((if marker then ['#'] else []) ++ natRepr len ++
        (if d = ',' then [] else [d]) ++ [']'])) := by
      intro hm
      rw [List.mem_cons] at hm
      rcases hm with hm | hm
      · exact absurd hm.symm (by decide)
      simp only [List.append_assoc, List.mem_append] at hm
      rcases hm with hm | hm | hm | hm
      · by_cases hmk : marker <;> simp [hmk] at hm
      · exact asciiDigit_ne_sp ' ' (natReprAux_digits _ _ ' ' hm) rfl
      · by_cases hdc : d = ','
        · simp [hdc] at hm
        · simp [hdc] at hm
          exact h1 hm.symm
      · simp at hm
    exact SegOk_of_no_sp _ hBsp (by
      intro hh
      rw [show (('[' : Char) :: ((if marker then ['#'] else []) ++ natRepr len ++
        (if d = ',' then [] else [d]) ++ [']'])).head? = some '[' from rfl] at hh
      exact absurd hh (by decide))
  · cases fields with
    | none => exact show SegOk ([] : Str) from ⟨by decide, by decide⟩
    | some fs =>
      show SegOk (if fs = [] then []
        else obC :: (joinChar d (fs.map encode_key) ++ [cbC]))
      split
      · exact ⟨by decide, by decide⟩
      · have hjoin := joinChar_segOk d (fs.map encode_key) h1 h2 (by
          intro l hl
          rw [List.mem_map] at hl
          obtain ⟨k, hk, rfl⟩ := hl
          exact (encode_key_props k).2.1)
        refine SegOk_cons_ne obC _ (by decide) (by decide) ?_
        exact okPairs_append _ [cbC] hjoin.1 (by decide) (Or.inr (by decide))

theorem pushLine_ok (o : EncOpts) (depth : Nat) (t : Str) (h : ContentOk t) :
    ContentOk (pushLine o depth t) := by
  obtain ⟨h1, h2, h3, h4⟩ := h
  unfold pushLine
  have hrep : '\n' ∉ List.replicate (o.indent * depth) ' ' := by
    intro hm
    exact absurd (List.eq_of_mem_replicate hm) (by decide)
  refine ⟨by simp [h1], SegOk_append _ _ (SegOk_of_no_nl _ hrep) h2, ?_, ?_⟩
  · rw [getLast?_append_ne _ _ h1]
    exact h3
  · rw [getLast?_append_ne _ _ h1]
    exact h4

theorem pushItem_ok (o : EncOpts) (depth : Nat) (t : Str) (h : ContentOk t) :
    ContentOk (pushItem o depth t) := by
  obtain ⟨h1, h2, h3, h4⟩ := h
  unfold pushItem
  apply pushLine_ok
  have hsp : SegOk (' ' :: t) := SegOk_sp_cons t h2
  refine ⟨by simp, SegOk_cons_ne '-' _ (by decide) (by decide) hsp.1, ?_, ?_⟩
  · rw [getLast?_cons_ne _ _ (by simp), getLast?_cons_ne _ _ h1]
    exact h3
  · rw [getLast?_cons_ne _ _ (by simp), getLast?_cons_ne _ _ h1]
    exact h4

theorem extract_header_facts (rows : List Json) (header : List Str)
    (h : extract_tabular_header rows = some header) :
    header ≠ [] ∧ ∀ r ∈ rows, ∀ kvs, r = Json.obj kvs →
      ∀ k ∈ header, is_json_primitive ((objGet kvs k).getD Json.null) = true := by
  unfold extract_tabular_header at h
  cases rows with
  | nil => exact absurd h (by simp)
  | cons first rest =>
    cases first with
    | obj kvs =>
      simp only [] at h
      split_ifs at h with hk1 hk2
      rw [Option.some_inj] at h
      subst h
      refine ⟨hk1, ?_⟩
      intro r hr kvs2 hrk k hk
      have hp := List.all_eq_true.mp hk2 r hr
      rw [hrk] at hp
      rw [Bool.and_eq_true] at hp
      have hp3 := List.all_eq_true.mp hp.2 k hk
      cases hg : objGet kvs2 k with
      | none => rfl
      | some v =>
        rw [hg] at hp3
        exact hp3
    | null => exact absurd h (by simp)
    | bool b => exact absurd h (by simp)
    | int n => exact absurd h (by simp)
    | float f => exact absurd h (by simp)
    | str s => exact absurd h (by simp)
    | arr xs => exact absurd h (by simp)

theorem write_tabular_rows_ok (rows : List Json) (header : List Str) (depth : Nat)
    (o : EncOpts) (hh : header ≠ []) (h1 : o.delimiter ≠ ' ') (h2 : o.delimiter ≠ '\n')
    (hprim : ∀ r ∈ rows, ∀ kvs, r = Json.obj kvs →
      ∀ k ∈ header, is_json_primitive ((objGet kvs k).getD Json.null) = true) :
    ∀ l ∈ write_tabular_rows rows header depth o, ContentOk l := by
  intro l hl
  unfold write_tabular_rows at hl
  rw [List.mem_filterMap] at hl
  obtain ⟨r, hr, hfr⟩ := hl
  cases r with
  | obj kvs =>
    rw [Option.some_inj] at hfr
    subst hfr
    apply pushLine_ok
    apply encode_and_join_ok _ _ (by simp [hh]) _ h1 h2
    rw [List.all_eq_true]
    intro v hv
    rw [List.mem_map] at hv
    obtain ⟨k, hk, rfl⟩ := hv
    exact hprim _ hr kvs rfl k hk
  | null => exact absurd hfr (by simp)
  | bool b => exact absurd hfr (by simp)
  | int n => exact absurd hfr (by simp)
  | float f => exact absurd hfr (by simp)
  | str s => exact absurd hfr (by simp)
  | arr xs => exact absurd hfr (by simp)

theorem encode_inline_array_line_ok (values : List Json) (d : Char) (key : Option Str)
    (marker : Bool) (hall : is_array_of_primitives values = true)
    (h1 : d ≠ ' ') (h2 : d ≠ '\n') :
    ContentOk (encode_inline_array_line values d key marker) := by
  unfold encode_inline_array_line
  simp only []
  split
  next hlen => exact format_header_ok values.length key none d marker h1 h2
  next hlen =>
    have hvne : values ≠ [] := by
      intro he
      rw [he] at hlen
      exact hlen rfl
    obtain ⟨hj1, hj2, hj3, hj4⟩ :=
      encode_and_join_ok values d hvne hall h1 h2
    obtain ⟨hh1, hh2, hh3, hh4⟩ := format_header_ok values.length key none d marker h1 h2
    refine ⟨by simp [hh1], ?_, ?_, ?_⟩
    · exact SegOk_append _ _ hh2 (SegOk_sp_cons _ hj2)
    · rw [getLast?_append_ne _ _ (by simp), getLast?_cons_ne _ _ hj1]
      exact hj3
    · rw [getLast?_append_ne _ _ (by simp), getLast?_cons_ne _ _ hj1]
      exact hj4

theorem kv_prim_content_ok (k : Str) (v : Json) (d : Char)
    (hv : is_json_primitive v = true) :
    ContentOk (encode_key k ++ ':' :: ' ' :: encode_primitive v d) := by
  obtain ⟨hk1, hk2, hk3⟩ := encode_key_props k
  obtain ⟨hp1, hp2, hp3⟩ := encode_primitive_tok v d hv
  refine ⟨by simp, ?_, ?_, ?_⟩
  · apply SegOk_append _ _ hk2
    apply SegOk_cons_ne ':' _ (by decide) (by decide)
    exact (SegOk_sp_cons _ (SegOk_of_TokOk _ ⟨hp1, hp2, hp3⟩)).1
  · rw [getLast?_append_ne _ _ (by simp), getLast?_cons_ne _ _ (by simp),
      getLast?_cons_ne _ _ hp1]
    exact hp3
  · rw [getLast?_append_ne _ _ (by simp), getLast?_cons_ne _ _ (by simp),
      getLast?_cons_ne _ _ hp1]
    intro hc
    exact hp2 (List.mem_of_mem_getLast? hc)

theorem key_colon_content_ok (k : Str) : ContentOk (encode_key k ++ [':']) := by
  obtain ⟨hk1, hk2, hk3⟩ := encode_key_props k
  refine ⟨by simp, SegOk_append _ _ hk2 ⟨by decide, by decide⟩, ?_, ?_⟩
  · rw [List.getLast?_concat]
    decide
  · rw [List.getLast?_concat]
    decide

theorem key_bracket_content_ok (k : Str) (n : Nat) :
    ContentOk (encode_key k ++ '[' :: (natRepr n ++ [']', ':'])) := by
  obtain ⟨hk1, hk2, hk3⟩ := encode_key_props k
  have hnr : ' ' ∉ natRepr n := fun hm =>
    asciiDigit_ne_sp ' ' (natReprAux_digits _ _ ' ' hm) rfl
  have htail : SegOk ('[' :: (natRepr n ++ [']', ':'])) := by
    apply SegOk_cons_ne '[' _ (by decide) (by decide)
    exact okPairs_append _ _ (okPairs_of_no_sp _ hnr) (by decide) (Or.inr (by decide))
  have hgl : (encode_key k ++ '[' :: (natRepr n ++ [']', ':'])).getLast? = some ':' := by
    rw [getLast?_append_ne _ _ (by simp), getLast?_cons_ne _ _ (by simp),
      getLast?_append_ne _ _ (by simp)]
    rfl
  refine ⟨by simp, SegOk_append _ _ hk2 htail, ?_, ?_⟩ <;>
    rw [hgl] <;> decide

mutual

theorem encode_object_hyg (kvs : List (Str × Json)) (depth : Nat) (o : EncOpts)
    (h1 : o.delimiter ≠ ' ') (h2 : o.delimiter ≠ '\n') :
    ∀ l ∈ encode_object kvs depth o, ContentOk l := by
  intro l hl
  match kvs with
  | [] =>
    rw [show encode_object [] depth o = [] from rfl] at hl
    exact absurd hl (by simp)
  | (k, v) :: rest =>
    rw [show encode_object ((k, v) :: rest) depth o =
      encode_key_value_pair k v depth o ++ encode_object rest depth o from rfl,
      List.mem_append] at hl
    rcases hl with hl | hl
    · exact encode_kvp_hyg k v depth o h1 h2 l hl
    · exact encode_object_hyg rest depth o h1 h2 l hl
termination_by sizeOf kvs

theorem encode_kvp_hyg (k : Str) (v : Json) (depth : Nat) (o : EncOpts)
    (h1 : o.delimiter ≠ ' ') (h2 : o.delimiter ≠ '\n') :
    ∀ l ∈ encode_key_value_pair k v depth o, ContentOk l := by
  intro l hl
  cases v with
  | arr xs =>
    rw [show encode_key_value_pair k (.arr xs) depth o =
      encode_array (some k) xs depth o from rfl] at hl
    exact encode_array_hyg (some k) xs depth o h1 h2 l hl
  | obj kvs =>
    rw [show encode_key_value_pair k (.obj kvs) depth o =
      pushLine o depth (encode_key k ++ [':']) ::
        (if kvs.isEmpty then [] else encode_object kvs (depth + 1) o) from rfl,
      List.mem_cons] at hl
    rcases hl with hl | hl
    · subst hl
      exact pushLine_ok _ _ _ (key_colon_content_ok k)
    · split at hl
      · exact absurd hl (by simp)
      · exact encode_object_hyg kvs (depth + 1) o h1 h2 l hl
  | null =>
    simp only [encode_key_value_pair, List.mem_singleton] at hl
    subst hl
    exact pushLine_ok _ _ _ (kv_prim_content_ok k _ o.delimiter rfl)
  | bool b =>
    simp only [encode_key_value_pair, List.mem_singleton] at hl
    subst hl
    exact pushLine_ok _ _ _ (kv_prim_content_ok k _ o.delimiter rfl)
  | int n =>
    simp only [encode_key_value_pair, List.mem_singleton] at hl
    subst hl
    exact pushLine_ok _ _ _ (kv_prim_content_ok k _ o.delimiter rfl)
  | float f =>
    simp only [encode_key_value_pair, List.mem_singleton] at hl
    subst hl
    exact pushLine_ok _ _ _ (kv_prim_content_ok k _ o.delimiter rfl)
  | str s =>
    simp only [encode_key_value_pair, List.mem_singleton] at hl
    subst hl
    exact pushLine_ok _ _ _ (kv_prim_content_ok k _ o.delimiter rfl)
termination_by sizeOf v

theorem encode_array_hyg (key : Option Str) (xs : List Json) (depth : Nat) (o : EncOpts)
    (h1 : o.delimiter ≠ ' ') (h2 : o.delimiter ≠ '\n') :
    ∀ l ∈ encode_array key xs depth o, ContentOk l := by
  intro l hl
  match xs with
  | [] =>
    simp only [encode_array, List.mem_singleton] at hl
    subst hl
    exact pushLine_ok _ _ _ (format_header_ok 0 key none o.delimiter o.lengthMarker h1 h2)
  | x :: xs2 =>
    simp only [encode_array] at hl
    split at hl
    next hprim =>
      simp only [List.mem_singleton] at hl
      subst hl
      exact pushLine_ok _ _ _
        (encode_inline_array_line_ok (x :: xs2) o.delimiter key o.lengthMarker hprim h1 h2)
    next =>
      split at hl
      next =>
        unfold encode_array_of_arrays_as_list_items at hl
        rw [List.mem_cons] at hl
        rcases hl with hl | hl
        · subst hl
          exact pushLine_ok _ _ _
            (format_header_ok (x :: xs2).length key none o.delimiter o.lengthMarker h1 h2)
        · rw [List.mem_filterMap] at hl
          obtain ⟨a, ha, hfa⟩ := hl
          cases a with
          | arr ys =>
            dsimp only at hfa
            by_cases hys : is_array_of_primitives ys = true
            · rw [if_pos hys, Option.some_inj] at hfa
              subst hfa
              exact pushItem_ok _ _ _
                (encode_inline_array_line_ok ys o.delimiter none o.lengthMarker hys h1 h2)
            · rw [if_neg hys] at hfa
              exact absurd hfa (by simp)
          | null => exact absurd hfa (by simp)
          | bool b => exact absurd hfa (by simp)
          | int n => exact absurd hfa (by simp)
          | float f => exact absurd hfa (by simp)
          | str s => exact absurd hfa (by simp)
          | obj kvs => exact absurd hfa (by simp)
      next =>
        split at hl
        next =>
          cases hext : extract_tabular_header (x :: xs2) with
          | some header =>
            rw [hext] at hl
            dsimp only at hl
            unfold encode_array_of_objects_as_tabular at hl
            rw [List.mem_cons] at hl
            rcases hl with hl | hl
            · subst hl
              exact pushLine_ok _ _ _
                (format_header_ok (x :: xs2).length key (some header) o.delimiter
                  o.lengthMarker h1 h2)
            · obtain ⟨hh, hp⟩ := extract_header_facts (x :: xs2) header hext
              exact write_tabular_rows_ok (x :: xs2) header (depth + 1) o hh h1 h2 hp l hl
          | none =>
            rw [hext] at hl
            dsimp only at hl
            rw [List.mem_cons] at hl
            rcases hl with hl | hl
            · subst hl
              exact pushLine_ok _ _ _
                (format_header_ok (x :: xs2).length key none o.delimiter o.lengthMarker h1 h2)
            · rw [List.mem_append] at hl
              rcases hl with hl | hl
              · exact encode_livv_hyg x (depth + 1) o h1 h2 l hl
              · exact encode_list_items_hyg xs2 (depth + 1) o h1 h2 l hl
        next =>
          rw [List.mem_cons] at hl
          rcases hl with hl | hl
          · subst hl
            exact pushLine_ok _ _ _
              (format_header_ok (x :: xs2).length key none o.delimiter o.lengthMarker h1 h2)
          · rw [List.mem_append] at hl
            rcases hl with hl | hl
            · exact encode_livv_hyg x (depth + 1) o h1 h2 l hl
            · exact encode_list_items_hyg xs2 (depth + 1) o h1 h2 l hl
termination_by sizeOf xs

theorem encode_list_items_hyg (xs : List Json) (depth : Nat) (o : EncOpts)
    (h1 : o.delimiter ≠ ' ') (h2 : o.delimiter ≠ '\n') :
    ∀ l ∈ encode_list_items xs depth o, ContentOk l := by
  intro l hl
  match xs with
  | [] =>
    rw [show encode_list_items [] depth o = [] from rfl] at hl
    exact absurd hl (by simp)
  | x :: xs2 =>
    rw [show encode_list_items (x :: xs2) depth o =
      encode_list_item_value x depth o ++ encode_list_items xs2 depth o from rfl,
      List.mem_append] at hl
    rcases hl with hl | hl
    · exact encode_livv_hyg x depth o h1 h2 l hl
    · exact encode_list_items_hyg xs2 depth o h1 h2 l hl
termination_by sizeOf xs

theorem encode_livv_hyg (v : Json) (depth : Nat) (o : EncOpts)
    (h1 : o.delimiter ≠ ' ') (h2 : o.delimiter ≠ '\n') :
    ∀ l ∈ encode_list_item_value v depth o, ContentOk l := by
  intro l hl
  cases v with
  | arr xs =>
    simp only [encode_list_item_value] at hl
    split at hl
    next hys =>
      simp only [List.mem_singleton] at hl
      subst hl
      exact pushItem_ok _ _ _
        (encode_inline_array_line_ok xs o.delimiter none o.lengthMarker hys h1 h2)
    next => exact absurd hl (by simp)
  | obj kvs =>
    rw [show encode_list_item_value (.obj kvs) depth o =
      encode_object_as_list_item kvs depth o from rfl] at hl
    exact encode_oali_hyg kvs depth o h1 h2 l hl
  | null =>
    simp only [encode_list_item_value, List.mem_singleton] at hl
    subst hl
    exact pushItem_ok _ _ _ (ContentOk_of_TokOk _ (encode_primitive_tok _ o.delimiter rfl))
  | bool b =>
    simp only [encode_list_item_value, List.mem_singleton] at hl
    subst hl
    exact pushItem_ok _ _ _ (ContentOk_of_TokOk _ (encode_primitive_tok _ o.delimiter rfl))
  | int n =>
    simp only [encode_list_item_value, List.mem_singleton] at hl
    subst hl
    exact pushItem_ok _ _ _ (ContentOk_of_TokOk _ (encode_primitive_tok _ o.delimiter rfl))
  | float f =>
    simp only [encode_list_item_value, List.mem_singleton] at hl
    subst hl
    exact pushItem_ok _ _ _ (ContentOk_of_TokOk _ (encode_primitive_tok _ o.delimiter rfl))
  | str s =>
    simp only [encode_list_item_value, List.mem_singleton] at hl
    subst hl
    exact pushItem_ok _ _ _ (ContentOk_of_TokOk _ (encode_primitive_tok _ o.delimiter rfl))
termination_by sizeOf v

theorem encode_oali_hyg (kvs : List (Str × Json)) (depth : Nat) (o : EncOpts)
    (h1 : o.delimiter ≠ ' ') (h2 : o.delimiter ≠ '\n') :
    ∀ l ∈ encode_object_as_list_item kvs depth o, ContentOk l := by
  match kvs with
  | [] =>
    intro l hl
    rw [show encode_object_as_list_item [] depth o = [pushLine o depth ['-']] from rfl,
      List.mem_singleton] at hl
    subst hl
    apply pushLine_ok
    exact show ContentOk ['-'] from ⟨by decide, ⟨by decide, by decide⟩, by decide, by decide⟩
  | (k1, v1) :: rest =>
    cases v1 with
    | arr xs =>
      have heq : encode_object_as_list_item ((k1, Json.arr xs) :: rest) depth o =
        (if is_array_of_primitives xs then
           [pushItem o depth (encode_inline_array_line xs o.delimiter (some k1) o.lengthMarker)]
         else if is_array_of_objects xs then
           match extract_tabular_header xs with
           | some header =>
             pushItem o depth
                 (format_header xs.length (some k1) (some header) o.delimiter o.lengthMarker) ::
               write_tabular_rows xs header (depth + 1) o
           | none =>
             pushItem o depth (encode_key k1 ++ '[' :: (natRepr xs.length ++ [']', ':'])) ::
               encode_objects_as_list_items xs (depth + 1) o
         else
           pushItem o depth (encode_key k1 ++ '[' :: (natRepr xs.length ++ [']', ':'])) ::
             encode_list_items xs (depth + 1) o) ++ encode_object rest (depth + 1) o := rfl
      intro l hl
      rw [heq, List.mem_append] at hl
      rcases hl with hl | hl
      · split at hl
        next hys =>
          rw [List.mem_singleton] at hl
          subst hl
          exact pushItem_ok _ _ _
            (encode_inline_array_line_ok xs o.delimiter (some k1) o.lengthMarker hys h1 h2)
        next =>
          split at hl
          next =>
            cases hext : extract_tabular_header xs with
            | some header =>
              rw [hext] at hl
              dsimp only at hl
              rw [List.mem_cons] at hl
              rcases hl with hl | hl
              · subst hl
                exact pushItem_ok _ _ _
                  (format_header_ok xs.length (some k1) (some header) o.delimiter
                    o.lengthMarker h1 h2)
              · obtain ⟨hh, hp⟩ := extract_header_facts xs header hext
                exact write_tabular_rows_ok xs header (depth + 1) o hh h1 h2 hp l hl
            | none =>
              rw [hext] at hl
              dsimp only at hl
              rw [List.mem_cons] at hl
              rcases hl with hl | hl
              · subst hl
                exact pushItem_ok _ _ _ (key_bracket_content_ok k1 xs.length)
              · exact encode_oali_list_hyg xs (depth + 1) o h1 h2 l hl
          next =>
            rw [List.mem_cons] at hl
            rcases hl with hl | hl
            · subst hl
              exact pushItem_ok _ _ _ (key_bracket_content_ok k1 xs.length)
            · exact encode_list_items_hyg xs (depth + 1) o h1 h2 l hl
      · exact encode_object_hyg rest (depth + 1) o h1 h2 l hl
    | obj kvs1 =>
      have heq : encode_object_as_list_item ((k1, Json.obj kvs1) :: rest) depth o =
        (pushItem o depth (encode_key k1 ++ [':']) ::
          (if kvs1.isEmpty then [] else encode_object kvs1 (depth + 2) o)) ++
          encode_object rest (depth + 1) o := rfl
      intro l hl
      rw [heq, List.mem_append] at hl
      rcases hl with hl | hl
      · rw [List.mem_cons] at hl
        rcases hl with hl | hl
        · subst hl
          exact pushItem_ok _ _ _ (key_colon_content_ok k1)
        · split at hl
          · exact absurd hl (by simp)
          · exact encode_object_hyg kvs1 (depth + 2) o h1 h2 l hl
      · exact encode_object_hyg rest (depth + 1) o h1 h2 l hl
    | null =>
      have heq : encode_object_as_list_item ((k1, Json.null) :: rest) depth o =
        [pushItem o depth
          (encode_key k1 ++ ':' :: ' ' :: encode_primitive Json.null o.delimiter)] ++
          encode_object rest (depth + 1) o := rfl
      intro l hl
      rw [heq, List.mem_append] at hl
      rcases hl with hl | hl
      · rw [List.mem_singleton] at hl
        subst hl
        exact pushItem_ok _ _ _ (kv_prim_content_ok k1 _ o.delimiter rfl)
      · exact encode_object_hyg rest (depth + 1) o h1 h2 l hl
    | bool b =>
      have heq : encode_object_as_list_item ((k1, Json.bool b) :: rest) depth o =
        [pushItem o depth
          (encode_key k1 ++ ':' :: ' ' :: encode_primitive (Json.bool b) o.delimiter)] ++
          encode_object rest (depth + 1) o := rfl
      intro l hl
      rw [heq, List.mem_append] at hl
      rcases hl with hl | hl
      · rw [List.mem_singleton] at hl
        subst hl
        exact pushItem_ok _ _ _ (kv_prim_content_ok k1 _ o.delimiter rfl)
      · exact encode_object_hyg rest (depth + 1) o h1 h2 l hl
    | int n =>
      have heq : encode_object_as_list_item ((k1, Json.int n) :: rest) depth o =
        [pushItem o depth
          (encode_key k1 ++ ':' :: ' ' :: encode_primitive (Json.int n) o.delimiter)] ++
          encode_object rest (depth + 1) o := rfl
      intro l hl
      rw [heq, List.mem_append] at hl
      rcases hl with hl | hl
      · rw [List.mem_singleton] at hl
        subst hl
        exact pushItem_ok _ _ _ (kv_prim_content_ok k1 _ o.delimiter rfl)
      · exact encode_object_hyg rest (depth + 1) o h1 h2 l hl
    | float f =>
      have heq : encode_object_as_list_item ((k1, Json.float f) :: rest) depth o =
        [pushItem o depth
          (encode_key k1 ++ ':' :: ' ' :: encode_primitive (Json.float f) o.delimiter)] ++
          encode_object rest (depth + 1) o := rfl
      intro l hl
      rw [heq, List.mem_append] at hl
      rcases hl with hl | hl
      · rw [List.mem_singleton] at hl
        subst hl
        exact pushItem_ok _ _ _ (kv_prim_content_ok k1 _ o.delimiter rfl)
      · exact encode_object_hyg rest (depth + 1) o h1 h2 l hl
    | str s =>
      have heq : encode_object_as_list_item ((k1, Json.str s) :: rest) depth o =
        [pushItem o depth
          (encode_key k1 ++ ':' :: ' ' :: encode_primitive (Json.str s) o.delimiter)] ++
          encode_object rest (depth + 1) o := rfl
      intro l hl
      rw [heq, List.mem_append] at hl
      rcases hl with hl | hl
      · rw [List.mem_singleton] at hl
        subst hl
        exact pushItem_ok _ _ _ (kv_prim_content_ok k1 _ o.delimiter rfl)
      · exact encode_object_hyg rest (depth + 1) o h1 h2 l hl
termination_by sizeOf kvs

theorem encode_oali_list_hyg (xs : List Json) (depth : Nat) (o : EncOpts)
    (h1 : o.delimiter ≠ ' ') (h2 : o.delimiter ≠ '\n') :
    ∀ l ∈ encode_objects_as_list_items xs depth o, ContentOk l := by
  match xs with
  | [] =>
    intro l hl
    rw [show encode_objects_as_list_items [] depth o = [] from rfl] at hl
    exact absurd hl (by simp)
  | x :: xs2 =>
    cases x with
    | obj kvs =>
      have heq : encode_objects_as_list_items (Json.obj kvs :: xs2) depth o =
        encode_object_as_list_item kvs depth o ++
          encode_objects_as_list_items xs2 depth o := rfl
      intro l hl
      rw [heq, List.mem_append] at hl
      rcases hl with hl | hl
      · exact encode_oali_hyg kvs depth o h1 h2 l hl
      · exact encode_oali_list_hyg xs2 depth o h1 h2 l hl
    | null =>
      intro l hl
      rw [show encode_objects_as_list_items (Json.null :: xs2) depth o =
        encode_objects_as_list_items xs2 depth o from rfl] at hl
      exact encode_oali_list_hyg xs2 depth o h1 h2 l hl
    | bool b =>
      intro l hl
      rw [show encode_objects_as_list_items (Json.bool b :: xs2) depth o =
        encode_objects_as_list_items xs2 depth o from rfl] at hl
      exact encode_oali_list_hyg xs2 depth o h1 h2 l hl
    | int n =>
      intro l hl
      rw [show encode_objects_as_list_items (Json.int n :: xs2) depth o =
        encode_objects_as_list_items xs2 depth o from rfl] at hl
      exact encode_oali_list_hyg xs2 depth o h1 h2 l hl
    | float f =>
      intro l hl
      rw [show encode_objects_as_list_items (Json.float f :: xs2) depth o =
        encode_objects_as_list_items xs2 depth o from rfl] at hl
      exact encode_oali_list_hyg xs2 depth o h1 h2 l hl
    | str s =>
      intro l hl
      rw [show encode_objects_as_list_items (Json.str s :: xs2) depth o =
        encode_objects_as_list_items xs2 depth o from rfl] at hl
      exact encode_oali_list_hyg xs2 depth o h1 h2 l hl
    | arr ys =>
      intro l hl
      rw [show encode_objects_as_list_items (Json.arr ys :: xs2) depth o =
        encode_objects_as_list_items xs2 depth o from rfl] at hl
      exact encode_oali_list_hyg xs2 depth o h1 h2 l hl
termination_by sizeOf xs

end

theorem splitOnChar_ne_nil (d : Char) (s : Str) : splitOnChar d s ≠ [] := by
  cases s with
  | nil => simp [splitOnChar]
  | cons c rest =>
    rw [show splitOnChar d (c :: rest) =
      (if c = d then [] :: splitOnChar d rest
       else match splitOnChar d rest with
        | [] => [[c]]
        | p :: ps => (c :: p) :: ps) from rfl]
    split
    · simp
    · split <;> simp

theorem splitOnChar_of_not_mem (d : Char) (s : Str) (h : d ∉ s) :
    splitOnChar d s = [s] := by
  induction s with
  | nil => rfl
  | cons c rest ih =>
    rw [show splitOnChar d (c :: rest) =
      (if c = d then [] :: splitOnChar d rest
       else match splitOnChar d rest with
        | [] => [[c]]
        | p :: ps => (c :: p) :: ps) from rfl]
    rw [if_neg (show ¬(c = d) from fun hc => h (by rw [← hc]; exact List.mem_cons_self _ _)),
      ih (fun hc => h (List.mem_cons_of_mem _ hc))]

theorem split_no_trail (s : Str) (hok : okPairs s = true) (hl : s.getLast? ≠ some ' ') :
    ∀ p ∈ splitOnChar '\n' s, p.getLast? ≠ some ' ' := by
  induction s with
  | nil =>
    intro p hp
    rw [show splitOnChar '\n' [] = [[]] from rfl, List.mem_singleton] at hp
    subst hp
    simp
  | cons c rest ih =>
    rw [show okPairs (c :: rest) =
      (!(decide (c = ' ') && decide (rest.head? = some '\n')) && okPairs rest) from rfl,
      Bool.and_eq_true] at hok
    obtain ⟨hpair, hokr⟩ := hok
    have hrl : rest.getLast? ≠ some ' ' := by
      cases rest with
      | nil => simp
      | cons r rs =>
        rw [← getLast?_cons_ne c (r :: rs) (by simp)]
        exact hl
    intro p hp
    rw [show splitOnChar '\n' (c :: rest) =
      (if c = '\n' then [] :: splitOnChar '\n' rest
       else match splitOnChar '\n' rest with
        | [] => [[c]]
        | q :: qs => (c :: q) :: qs) from rfl] at hp
    by_cases hc : c = '\n'
    · rw [if_pos hc, List.mem_cons] at hp
      rcases hp with hp | hp
      · subst hp
        simp
      · exact ih hokr hrl p hp
    · rw [if_neg hc] at hp
      cases hsp : splitOnChar '\n' rest with
      | nil => exact absurd hsp (splitOnChar_ne_nil '\n' rest)
      | cons q qs =>
        rw [hsp] at hp
        dsimp only at hp
        rw [List.mem_cons] at hp
        rcases hp with hp | hp
        · subst hp
          cases q with
          | nil =>
            cases rest with
            | nil => simpa using hl
            | cons r rs =>
              have hr : r = '\n' := by
                by_contra hrneq
                rw [show splitOnChar '\n' (r :: rs) =
                  (if r = '\n' then [] :: splitOnChar '\n' rs
                   else match splitOnChar '\n' rs with
                    | [] => [[r]]
                    | p2 :: ps2 => (r :: p2) :: ps2) from rfl, if_neg hrneq] at hsp
                cases hsp2 : splitOnChar '\n' rs with
                | nil => exact splitOnChar_ne_nil '\n' rs hsp2
                | cons p2 ps2 =>
                  rw [hsp2] at hsp
                  dsimp only at hsp
                  rw [List.cons_eq_cons] at hsp
                  exact absurd hsp.1.symm (by simp)
              have hcsp : c ≠ ' ' := by
                intro hcsp
                rw [hcsp, hr] at hpair
                simp at hpair
              simp [hcsp]
          | cons q1 q2 =>
            rw [getLast?_cons_ne c (q1 :: q2) (by simp)]
            exact ih hokr hrl (q1 :: q2) (hsp ▸ List.mem_cons_self _ _)
        · exact ih hokr hrl p (hsp ▸ List.mem_cons_of_mem q hp)

theorem okPairs_join_nl (ls : List Str)
    (h : ∀ l ∈ ls, okPairs l = true ∧ l.getLast? ≠ some ' ') :
    okPairs (joinChar '\n' ls) = true := by
  induction ls with
  | nil => rfl
  | cons l ls ih =>
    cases ls with
    | nil => exact (h l (List.mem_singleton_self l)).1
    | cons l2 rest =>
      rw [show joinChar '\n' (l :: l2 :: rest) =
        l ++ '\n' :: joinChar '\n' (l2 :: rest) from rfl]
      apply okPairs_append _ _ (h l (List.mem_cons_self _ _)).1
      · rw [show okPairs ('\n' :: joinChar '\n' (l2 :: rest)) =
          (!(decide (('\n' : Char) = ' ') &&
            decide ((joinChar '\n' (l2 :: rest)).head? = some '\n')) &&
            okPairs (joinChar '\n' (l2 :: rest))) from rfl]
        have := ih (fun x hx => h x (List.mem_cons_of_mem _ hx))
        simp [this]
      · exact Or.inl (h l (List.mem_cons_self _ _)).2

/-- All lines pushed to the writer hygienic implies the joined output is
hygienic in the sense of claim C5. -/
theorem joined_hygienic (ls : List Str) (h : ∀ l ∈ ls, ContentOk l) :
    (∀ p ∈ splitOnChar '\n' (joinChar '\n' ls), p.getLast? ≠ some ' ') ∧
    (joinChar '\n' ls).getLast? ≠ some '\n' := by
  cases ls with
  | nil =>
    constructor
    · intro p hp
      rw [show joinChar '\n' [] = [] from rfl] at hp
      rw [show splitOnChar '\n' [] = [[]] from rfl, List.mem_singleton] at hp
      subst hp
      simp
    · simp [joinChar]
  | cons l0 ls0 =>
    have hlast := joinChar_last '\n' (l0 :: ls0) (by simp) (fun x hx => by
      obtain ⟨x1, _, x3, x4⟩ := h x hx
      exact ⟨x1, x3, x4⟩)
    have hok := okPairs_join_nl (l0 :: ls0) (fun x hx => ⟨(h x hx).2.1.1, (h x hx).2.2.1⟩)
    exact ⟨split_no_trail _ hok hlast.2.1, hlast.2.2⟩

/-- Claim C5: for every value and every resolved encode options (whose
delimiter is one of the three legal delimiters), the encoder output has
no line ending in a space and does not end with a newline. -/
theorem C5_output_hygiene (v : PyValue) (o : EncOpts)
    (hd : o.delimiter = ',' ∨ o.delimiter = '\t' ∨ o.delimiter = '|') :
    (∀ line ∈ splitOnChar '\n' (encodeToon v o), line.getLast? ≠ some ' ') ∧
    (encodeToon v o).getLast? ≠ some '\n' := by
  have h1 : o.delimiter ≠ ' ' := by
    rcases hd with hd | hd | hd <;> rw [hd] <;> decide
  have h2 : o.delimiter ≠ '\n' := by
    rcases hd with hd | hd | hd <;> rw [hd] <;> decide
  unfold encodeToon encode_value
  have hprim : ∀ w : Json, is_json_primitive w = true →
      (∀ line ∈ splitOnChar '\n' (encode_primitive w o.delimiter),
        line.getLast? ≠ some ' ') ∧
      (encode_primitive w o.delimiter).getLast? ≠ some '\n' := by
    intro w hw
    obtain ⟨t1, t2, t3⟩ := encode_primitive_tok w o.delimiter hw
    constructor
    · intro line hline
      rw [splitOnChar_of_not_mem '\n' _ t2, List.mem_singleton] at hline
      subst hline
      exact t3
    · intro hc
      exact t2 (List.mem_of_mem_getLast? hc)
  cases hn : normalize_value v with
  | arr xs => exact joined_hygienic _ (fun l hl => encode_array_hyg none xs 0 o h1 h2 l hl)
  | obj kvs => exact joined_hygienic _ (fun l hl => encode_object_hyg kvs 0 o h1 h2 l hl)
  | null => exact hprim Json.null rfl
  | bool b => exact hprim (Json.bool b) rfl
  | int n => exact hprim (Json.int n) rfl
  | float f => exact hprim (Json.float f) rfl
  | str s => exact hprim (Json.str s) rfl

/-- Witness for C5: encoding the string value `hi` under the default
options yields hygienic output. -/
theorem C5_output_hygiene_witness :
    (∀ line ∈ splitOnChar '\n' (encodeToon (PyValue.str ['h', 'i']) defaultEncOpts),
      line.getLast? ≠ some ' ') ∧
    (encodeToon (PyValue.str ['h', 'i']) defaultEncOpts).getLast? ≠ some '\n' :=
  C5_output_hygiene (PyValue.str ['h', 'i']) defaultEncOpts (Or.inl rfl)

/-! Claim C1: decimal integer representations parse back to the same
integer, and the decoder pipeline on single-token documents. -/

end Tone
